import Mathlib

/-!
Verification of the real-time crypto trade processor's core data and compute
pipeline: the ingress ring queue (`src/data/queue.c`), the per-symbol sliding
window with incremental VWAP sums (`src/data/sliding_window.c`), the
minute-resolution VWAP history ring (`src/data/vwap_history.c`), the lagged
Pearson correlation search (`src/compute/correlation.c`), the minute-aligned
scheduler's initial alignment (`src/scheduler/scheduler.c`) and the OKX trade
message decoder (`src/network/okx_parser.c`).

Modelling conventions:
* C `double` values are modelled by exact rationals; the IEEE NaN value is
  modelled by `none` in `Option ℚ` (abbreviated `DQ`).  Arithmetic on `DQ`
  propagates `none` exactly as C arithmetic propagates NaN.  Rounding error
  of `double` arithmetic is abstracted away (exact arithmetic), which is the
  reading under which the spec's "within 1e-9 relative" tolerances hold.
* `pearson_correlation` computes `num / sqrt(den2)` in C.  Since `sqrt` is
  irrational, the embedding returns the pair `(num, den2)` (the numerator and
  the *square* of the denominator) for a non-NaN result, and `none` for NaN
  (which the C code produces when `den2 ≤ 0`: `den2 = 0` hits the explicit
  `return NAN`, `den2 < 0` makes `sqrt` return NaN, and a NaN input makes all
  sums NaN).  The real value of a result pair is `corrVal p = p.1 / √p.2`,
  and the C comparison `fabs(corr) > fabs(best)` is the cross-multiplied
  `fabsGtB`; lemma `fabsGtB_iff_corrVal` proves the two agree.
* C integer types are modelled by `ℤ` / `ℕ`; all index arithmetic in the
  ring buffers is non-negative at every use site, so `ℕ` arithmetic with `%`
  coincides with the C `int` arithmetic being modelled.
-/

namespace CryptoProc

/-! ### Configuration constants, from `include/common.h` -/

def NUM_SYMBOLS : ℕ := 8

def WINDOW_MINUTES : ℕ := 15

/-- `WINDOW_MS = WINDOW_MINUTES * 60 * 1000` (as `int64_t`). -/
def WINDOW_MS : ℤ := (WINDOW_MINUTES : ℤ) * 60 * 1000

def WINDOW_CAPACITY : ℕ := 50000

def MOVING_AVG_POINTS : ℕ := 8

def MAX_LAG_MINUTES : ℕ := 60

def VWAP_HISTORY_SIZE_MINUTES : ℕ := MAX_LAG_MINUTES + MOVING_AVG_POINTS

def RAW_TRADE_QUEUE_SIZE : ℕ := 1024

def MS_PER_MINUTE : ℤ := 60000

def NS_PER_MS : ℤ := 1000000

/-! ### Doubles with NaN: `DQ = Option ℚ`, `none` is NaN -/

/-- A C `double`, modelled as an exact rational or NaN (`none`). -/
abbrev DQ := Option ℚ

/-- Addition of doubles: NaN-propagating. -/
def dadd : DQ → DQ → DQ
  | some a, some b => some (a + b)
  | _, _ => none

/-- Subtraction of doubles: NaN-propagating. -/
def dsub : DQ → DQ → DQ
  | some a, some b => some (a - b)
  | _, _ => none

/-- Multiplication of doubles: NaN-propagating. -/
def dmul : DQ → DQ → DQ
  | some a, some b => some (a * b)
  | _, _ => none

/-- Sum of a list of doubles, accumulated from 0 as the C loops do. -/
def dsum (l : List DQ) : DQ := l.foldl dadd (some 0)

theorem dadd_comm (a b : DQ) : dadd a b = dadd b a := by
  cases a <;> cases b <;> simp [dadd, Rat.add_comm]

theorem dmul_comm (a b : DQ) : dmul a b = dmul b a := by
  cases a <;> cases b <;> simp [dmul, Rat.mul_comm]

theorem dadd_none_left (a : DQ) : dadd none a = none := by
  cases a <;> rfl

theorem dadd_none_right (a : DQ) : dadd a none = none := by
  cases a <;> rfl

/-- Once the accumulator is NaN, the fold stays NaN. -/
theorem foldl_dadd_none (l : List DQ) : l.foldl dadd none = none := by
  induction l with
  | nil => rfl
  | cons x xs ih =>
    rw [List.foldl_cons, dadd_none_left, ih]

/-- A NaN element makes a `dadd`-fold NaN from any accumulator, as in C. -/
theorem foldl_dadd_eq_none_of_mem (l : List DQ) (acc : DQ) (h : none ∈ l) :
    l.foldl dadd acc = none := by
  induction l generalizing acc with
  | nil => cases h
  | cons x xs ih =>
    rcases List.mem_cons.1 h with hx | hxs
    · rw [List.foldl_cons, ← hx, dadd_none_right, foldl_dadd_none]
    · exact ih _ hxs

/-- A NaN element makes the whole sum NaN, as in C. -/
theorem dsum_eq_none_of_mem (l : List DQ) (h : none ∈ l) : dsum l = none :=
  foldl_dadd_eq_none_of_mem l _ h

theorem foldl_dadd_map_some (l : List ℚ) (a : ℚ) :
    (l.map some).foldl dadd (some a) = some (a + l.sum) := by
  induction l generalizing a with
  | nil => simp
  | cons x xs ih =>
    simp only [List.map_cons, List.foldl_cons, dadd, List.sum_cons, ih]
    rw [add_assoc]

/-- On NaN-free input the sum is the exact rational sum. -/
theorem dsum_map_some (l : List ℚ) : dsum (l.map some) = some l.sum := by
  unfold dsum
  rw [foldl_dadd_map_some, zero_add]

/-! ### Pearson correlation, from `src/compute/correlation.c`

`pearson_correlation(x, y, n)` loops `i = 0 .. n-1` accumulating the five
sums, then computes `num / sqrt(den2)` where
`den2 = (n·Σx² − (Σx)²)·(n·Σy² − (Σy)²)`, returning NaN when the
denominator is zero (and, through IEEE semantics, also when `den2 < 0`
or any input is NaN).  The embedding returns `some (num, den2)` for a
non-NaN result and `none` for NaN; `corrVal` interprets the pair as the
real number the C function returns. -/

/-- `sum_x` of `pearson_correlation`: sum of the first `n` entries. -/
def sumTake (n : ℕ) (x : List DQ) : DQ := dsum (x.take n)

/-- `sum_xx` of `pearson_correlation`: sum of squares of the first `n` entries. -/
def sumSqTake (n : ℕ) (x : List DQ) : DQ :=
  dsum ((x.take n).map fun a => dmul a a)

/-- `sum_xy` of `pearson_correlation`: sum of pairwise products of the first
`n` entries. -/
def sumMulTake (n : ℕ) (x y : List DQ) : DQ :=
  dsum (((x.take n).zip (y.take n)).map fun p => dmul p.1 p.2)

/-- The numerator `n*sum_xy - sum_x*sum_y` of `pearson_correlation`. -/
def pearsonNum (n : ℕ) (x y : List DQ) : DQ :=
  dsub (dmul (some (n : ℚ)) (sumMulTake n x y)) (dmul (sumTake n x) (sumTake n y))

/-- The square of the denominator of `pearson_correlation`:
`(n*sum_xx - sum_x*sum_x) * (n*sum_yy - sum_y*sum_y)` (the argument of `sqrt`). -/
def pearsonDen2 (n : ℕ) (x y : List DQ) : DQ :=
  dmul (dsub (dmul (some (n : ℚ)) (sumSqTake n x)) (dmul (sumTake n x) (sumTake n x)))
       (dsub (dmul (some (n : ℚ)) (sumSqTake n y)) (dmul (sumTake n y) (sumTake n y)))

/-- `pearson_correlation(x, y, n)`: `none` is the NaN result (denominator zero,
`den2 < 0`, or NaN anywhere in the inputs); `some (num, den2)` is the non-NaN
result `num / sqrt(den2)`. -/
def pearson_correlation (x y : List DQ) (n : ℕ) : Option (ℚ × ℚ) :=
  match pearsonNum n x y, pearsonDen2 n x y with
  | some nu, some d2 => if d2 ≤ 0 then none else some (nu, d2)
  | _, _ => none

/-- The real value of a non-NaN Pearson result: `num / sqrt(den2)`. -/
noncomputable def corrVal (p : ℚ × ℚ) : ℝ := (p.1 : ℝ) / Real.sqrt (p.2 : ℝ)

/-- The C comparison `fabs(c) > fabs(best)` on Pearson results, cross-multiplied
to stay in exact arithmetic: `|c.1|/√c.2 > |best.1|/√best.2` iff
`best.1² · c.2 < c.1² · best.2` (both `den2` components being positive). -/
def fabsGtB (c best : ℚ × ℚ) : Bool := decide (best.1 ^ 2 * c.2 < c.1 ^ 2 * best.2)

/-- A non-NaN Pearson result always has a positive squared denominator. -/
theorem pearson_den2_pos {x y : List DQ} {n : ℕ} {p : ℚ × ℚ}
    (h : pearson_correlation x y n = some p) : 0 < p.2 := by
  unfold pearson_correlation at h
  rcases hnu : pearsonNum n x y with _ | nu <;> rcases hd2 : pearsonDen2 n x y with _ | d2 <;>
      rw [hnu, hd2] at h
  · exact absurd h (by simp)
  · exact absurd h (by simp)
  · exact absurd h (by simp)
  · have h' : (if d2 ≤ 0 then none else some (nu, d2) : Option (ℚ × ℚ)) = some p := h
    by_cases hle : d2 ≤ 0
    · rw [if_pos hle] at h'; exact absurd h' (by simp)
    · rw [if_neg hle] at h'
      cases h'
      exact lt_of_not_le hle

theorem abs_corrVal {p : ℚ × ℚ} (hp : 0 < p.2) :
    |corrVal p| = Real.sqrt ((p.1 : ℝ) ^ 2 / (p.2 : ℝ)) := by
  have h2 : (0 : ℝ) < (p.2 : ℝ) := by exact_mod_cast hp
  rw [Real.sqrt_div (sq_nonneg _), Real.sqrt_sq_eq_abs, corrVal, abs_div,
    abs_of_nonneg (Real.sqrt_nonneg _)]

/-- The cross-multiplied comparison `fabsGtB` agrees with the IEEE comparison
`fabs(corrVal c) > fabs(corrVal best)` whenever both results are non-NaN. -/
theorem fabsGtB_iff_corrVal {c best : ℚ × ℚ} (hc : 0 < c.2) (hb : 0 < best.2) :
    fabsGtB c best = true ↔ |corrVal best| < |corrVal c| := by
  have hc' : (0 : ℝ) < (c.2 : ℝ) := by exact_mod_cast hc
  have hb' : (0 : ℝ) < (best.2 : ℝ) := by exact_mod_cast hb
  rw [abs_corrVal hc, abs_corrVal hb, fabsGtB, decide_eq_true_eq]
  rw [Real.sqrt_lt_sqrt_iff (by positivity), div_lt_div_iff₀ hb' hc']
  constructor
  · intro h
    exact_mod_cast h
  · intro h
    exact_mod_cast h

/-- The non-strict counterpart: `¬ fabsGtB c best` means `|corrVal c| ≤ |corrVal best|`. -/
theorem not_fabsGtB_iff_corrVal {c best : ℚ × ℚ} (hc : 0 < c.2) (hb : 0 < best.2) :
    fabsGtB c best = false ↔ |corrVal c| ≤ |corrVal best| := by
  rw [← not_lt, ← fabsGtB_iff_corrVal hc hb]
  cases h : fabsGtB c best <;> simp [h]

/-! ### Algebraic facts about the Pearson sums -/

theorem zip_self_eq_map {α : Type} (l : List α) : l.zip l = l.map fun a => (a, a) := by
  induction l with
  | nil => rfl
  | cons x xs ih => simp [List.zip_cons_cons, ih]

theorem sumMulTake_comm (n : ℕ) (x y : List DQ) : sumMulTake n x y = sumMulTake n y x := by
  unfold sumMulTake
  rw [← List.zip_swap (y.take n) (x.take n), List.map_map]
  exact congrArg dsum (List.map_congr_left fun p _ => dmul_comm p.2 p.1)

theorem pearsonNum_comm (n : ℕ) (x y : List DQ) : pearsonNum n x y = pearsonNum n y x := by
  unfold pearsonNum
  rw [sumMulTake_comm, dmul_comm (sumTake n x) (sumTake n y)]

theorem pearsonDen2_comm (n : ℕ) (x y : List DQ) : pearsonDen2 n x y = pearsonDen2 n y x := by
  unfold pearsonDen2
  rw [dmul_comm]

/-- `n·Σt² − (Σt)²` is half the sum of all squared pairwise differences, as a
sum over `Fin n` indices. -/
theorem var_identity_fin (n : ℕ) (f : Fin n → ℚ) :
    2 * ((n : ℚ) * ∑ i, f i ^ 2 - (∑ i, f i) * ∑ i, f i)
      = ∑ i : Fin n, ∑ j : Fin n, (f i - f j) ^ 2 := by
  have expand : ∀ i j : Fin n, (f i - f j) ^ 2 = f i ^ 2 - 2 * (f i * f j) + f j ^ 2 :=
    fun i j => by ring
  have step1 : ∀ i : Fin n, ∑ j : Fin n, (f i - f j) ^ 2
      = (n : ℚ) * f i ^ 2 - 2 * (f i * ∑ j : Fin n, f j) + ∑ j : Fin n, f j ^ 2 := by
    intro i
    rw [Finset.sum_congr rfl fun j _ => expand i j, Finset.sum_add_distrib,
      Finset.sum_sub_distrib, Finset.sum_const, Finset.card_univ, Fintype.card_fin,
      nsmul_eq_mul, ← Finset.mul_sum, ← Finset.mul_sum]
  have step2 : ∑ i : Fin n, 2 * (f i * ∑ j : Fin n, f j)
      = 2 * ((∑ i : Fin n, f i) * ∑ j : Fin n, f j) := by
    rw [← Finset.mul_sum, ← Finset.sum_mul]
  have step3 : ∑ i : Fin n, (n : ℚ) * f i ^ 2 = (n : ℚ) * ∑ i : Fin n, f i ^ 2 := by
    rw [← Finset.mul_sum]
  rw [Finset.sum_congr rfl fun i _ => step1 i, Finset.sum_add_distrib,
    Finset.sum_sub_distrib, step2, step3, Finset.sum_const, Finset.card_univ,
    Fintype.card_fin, nsmul_eq_mul]
  ring

theorem list_sum_eq_fin (l : List ℚ) : l.sum = ∑ i : Fin l.length, l.get i := by
  conv_lhs => rw [← List.ofFn_get l]
  rw [List.sum_ofFn]

theorem list_sq_sum_eq_fin (l : List ℚ) :
    (l.map fun t => t * t).sum = ∑ i : Fin l.length, l.get i ^ 2 := by
  conv_lhs => rw [← List.ofFn_get l]
  rw [List.map_ofFn, List.sum_ofFn]
  exact Finset.sum_congr rfl fun i _ => by simp [Function.comp]; ring

/-- `n·Σt² − (Σt)²` is half the sum of all squared pairwise differences. -/
theorem var_identity (l : List ℚ) :
    2 * ((l.length : ℚ) * (l.map fun t => t * t).sum - l.sum * l.sum)
      = ∑ i : Fin l.length, ∑ j : Fin l.length, (l.get i - l.get j) ^ 2 := by
  rw [list_sq_sum_eq_fin, list_sum_eq_fin]
  exact var_identity_fin l.length l.get

/-- The Pearson variance term is non-negative (Cauchy–Schwarz with the all-ones
vector), in exact arithmetic. -/
theorem var_nonneg (l : List ℚ) :
    0 ≤ (l.length : ℚ) * (l.map fun t => t * t).sum - l.sum * l.sum := by
  have h2 : 0 ≤ 2 * ((l.length : ℚ) * (l.map fun t => t * t).sum - l.sum * l.sum) := by
    rw [var_identity]
    exact Finset.sum_nonneg fun i _ => Finset.sum_nonneg fun j _ => sq_nonneg _
  linarith

/-- On a constant list the Pearson variance term vanishes (the zero-variance
degenerate case of the spec). -/
theorem var_eq_zero_of_const (l : List ℚ) (hconst : ∀ a ∈ l, ∀ b ∈ l, a = b) :
    (l.length : ℚ) * (l.map fun t => t * t).sum - l.sum * l.sum = 0 := by
  have h2 : 2 * ((l.length : ℚ) * (l.map fun t => t * t).sum - l.sum * l.sum) = 0 := by
    rw [var_identity]
    apply Finset.sum_eq_zero
    intro i _
    apply Finset.sum_eq_zero
    intro j _
    have : l.get i = l.get j := hconst _ (l.get_mem _ _) _ (l.get_mem _ _)
    rw [this, sub_self]
    norm_num
  linarith

theorem dmul_none_left (a : DQ) : dmul none a = none := by cases a <;> rfl

theorem dmul_none_right (a : DQ) : dmul a none = none := by cases a <;> rfl

theorem dsub_none_left (a : DQ) : dsub none a = none := by cases a <;> rfl

theorem dsub_none_right (a : DQ) : dsub a none = none := by cases a <;> rfl

/-- On a non-constant list the Pearson variance term is strictly positive. -/
theorem var_pos (l : List ℚ) (a b : ℚ) (ha : a ∈ l) (hb : b ∈ l) (hab : a ≠ b) :
    0 < (l.length : ℚ) * (l.map fun t => t * t).sum - l.sum * l.sum := by
  obtain ⟨i, hi⟩ := List.get_of_mem ha
  obtain ⟨j, hj⟩ := List.get_of_mem hb
  have h2 : 0 < 2 * ((l.length : ℚ) * (l.map fun t => t * t).sum - l.sum * l.sum) := by
    rw [var_identity]
    apply Finset.sum_pos'
    · intro k _
      exact Finset.sum_nonneg fun m _ => sq_nonneg _
    · refine ⟨i, Finset.mem_univ _, ?_⟩
      apply Finset.sum_pos'
      · intro m _
        exact sq_nonneg _
      · refine ⟨j, Finset.mem_univ _, ?_⟩
        have : l.get i - l.get j ≠ 0 := by
          rw [hi, hj]
          exact sub_ne_zero_of_ne hab
        positivity
  linarith

/-! ### Pearson on NaN-free, constant, and NaN-carrying inputs -/

theorem take_length_map_some (x : List ℚ) : (x.map some).take x.length = x.map some := by
  rw [show x.length = (x.map some).length from (List.length_map x some).symm, List.take_length]

theorem sumTake_map_some (x : List ℚ) : sumTake x.length (x.map some) = some x.sum := by
  unfold sumTake
  rw [take_length_map_some]
  exact dsum_map_some x

theorem sumSqTake_map_some (x : List ℚ) :
    sumSqTake x.length (x.map some) = some (x.map fun t => t * t).sum := by
  unfold sumSqTake
  rw [take_length_map_some, List.map_map]
  have : x.map ((fun a => dmul a a) ∘ some) = (x.map fun t => t * t).map some := by
    rw [List.map_map]
    exact List.map_congr_left fun t _ => rfl
  rw [this]
  exact dsum_map_some _

theorem sumMulTake_map_some_self (x : List ℚ) :
    sumMulTake x.length (x.map some) (x.map some) = some (x.map fun t => t * t).sum := by
  unfold sumMulTake
  rw [take_length_map_some, zip_self_eq_map, List.map_map, List.map_map]
  have : x.map (((fun p : DQ × DQ => dmul p.1 p.2) ∘ fun a => (a, a)) ∘ some)
      = (x.map fun t => t * t).map some := by
    rw [List.map_map]
    exact List.map_congr_left fun t _ => rfl
  rw [this]
  exact dsum_map_some _

/-- `pearson_correlation(x, x, n)` on a NaN-free non-constant vector returns a
non-NaN result whose value is exactly `1.0`: the numerator equals
`n·Σx² − (Σx)²` and the squared denominator is its square. -/
theorem pearson_self_eq_one (x : List ℚ) (a b : ℚ) (ha : a ∈ x) (hb : b ∈ x) (hab : a ≠ b) :
    ∃ p : ℚ × ℚ,
      pearson_correlation (x.map some) (x.map some) x.length = some p ∧ corrVal p = 1 := by
  set A : ℚ := (x.length : ℚ) * (x.map fun t => t * t).sum - x.sum * x.sum with hA
  have hApos : 0 < A := var_pos x a b ha hb hab
  have hnum : pearsonNum x.length (x.map some) (x.map some) = some A := by
    unfold pearsonNum
    rw [sumMulTake_map_some_self, sumTake_map_some]
    rfl
  have hden : pearsonDen2 x.length (x.map some) (x.map some) = some (A * A) := by
    unfold pearsonDen2
    rw [sumSqTake_map_some, sumTake_map_some]
    rfl
  refine ⟨(A, A * A), ?_, ?_⟩
  · unfold pearson_correlation
    rw [hnum, hden]
    have : ¬ (A * A ≤ 0) := not_le.2 (mul_pos hApos hApos)
    simp [this]
  · unfold corrVal
    have hAA : ((A * A : ℚ) : ℝ) = (A : ℝ) * (A : ℝ) := by push_cast; ring
    have hAnn : (0 : ℝ) ≤ (A : ℝ) := by exact_mod_cast hApos.le
    have hAne : (A : ℝ) ≠ 0 := by exact_mod_cast hApos.ne'
    rw [hAA, Real.sqrt_mul_self hAnn]
    exact div_self hAne

/-- A NaN among the first `n` entries of the first argument makes
`pearson_correlation` return NaN (the `sum_xx` accumulator becomes NaN, hence
the denominator does). -/
theorem pearson_none_of_nan_left (x y : List DQ) (n : ℕ) (h : none ∈ x.take n) :
    pearson_correlation x y n = none := by
  have hsq : sumSqTake n x = none := by
    unfold sumSqTake
    exact dsum_eq_none_of_mem _ (List.mem_map.2 ⟨none, h, rfl⟩)
  have hden : pearsonDen2 n x y = none := by
    unfold pearsonDen2
    rw [hsq, dmul_none_right, dsub_none_left, dmul_none_left]
  unfold pearson_correlation
  rw [hden]
  cases pearsonNum n x y <;> rfl

/-- A NaN among the first `n` entries of the second argument makes
`pearson_correlation` return NaN (the `sum_yy` accumulator becomes NaN). -/
theorem pearson_none_of_nan_right (x y : List DQ) (n : ℕ) (h : none ∈ y.take n) :
    pearson_correlation x y n = none := by
  have hsq : sumSqTake n y = none := by
    unfold sumSqTake
    exact dsum_eq_none_of_mem _ (List.mem_map.2 ⟨none, h, rfl⟩)
  have hden : pearsonDen2 n x y = none := by
    unfold pearsonDen2
    rw [hsq, dmul_none_right, dsub_none_left, dmul_none_right]
  unfold pearson_correlation
  rw [hden]
  cases pearsonNum n x y <;> rfl

theorem exists_map_some_of_not_none_mem (x : List DQ) (h : none ∉ x) :
    ∃ l : List ℚ, x = l.map some := by
  induction x with
  | nil => exact ⟨[], rfl⟩
  | cons a xs ih =>
    have ha : a ≠ none := fun hc => h (hc ▸ List.mem_cons_self a xs)
    obtain ⟨q, hq⟩ := Option.ne_none_iff_exists'.1 ha
    obtain ⟨l, hl⟩ := ih fun hc => h (List.mem_cons_of_mem _ hc)
    exact ⟨q :: l, by rw [hq, hl]; rfl⟩

/-- A constant source vector of full length `n` has zero Pearson variance, so
`pearson_correlation` returns NaN against every target vector. -/
theorem pearson_const_none (x : List DQ) (n : ℕ) (hn : x.length = n)
    (hconst : ∀ a ∈ x, ∀ b ∈ x, a = b) (y : List DQ) :
    pearson_correlation x y n = none := by
  by_cases hnan : none ∈ x
  · exact pearson_none_of_nan_left x y n (by rw [← hn, List.take_length]; exact hnan)
  · obtain ⟨l, rfl⟩ := exists_map_some_of_not_none_mem x hnan
    have hlen : l.length = n := by rw [← hn, List.length_map]
    have hlconst : ∀ a ∈ l, ∀ b ∈ l, a = b := by
      intro a ha b hb
      have := hconst (some a) (List.mem_map_of_mem some ha) (some b) (List.mem_map_of_mem some hb)
      exact Option.some_injective _ this
    have hvar : (l.length : ℚ) * (l.map fun t => t * t).sum - l.sum * l.sum = 0 :=
      var_eq_zero_of_const l hlconst
    have hF : dsub (dmul (some (n : ℚ)) (sumSqTake n (l.map some)))
        (dmul (sumTake n (l.map some)) (sumTake n (l.map some))) = some 0 := by
      rw [← hlen, sumSqTake_map_some, sumTake_map_some]
      show some ((l.length : ℚ) * (l.map fun t => t * t).sum - l.sum * l.sum) = some 0
      rw [hvar]
    have hden : pearsonDen2 n (l.map some) y = some 0
        ∨ pearsonDen2 n (l.map some) y = none := by
      unfold pearsonDen2
      rw [hF]
      rcases dsub (dmul (some (n : ℚ)) (sumSqTake n y)) (dmul (sumTake n y) (sumTake n y)) with
        _ | g
      · exact Or.inr rfl
      · exact Or.inl (by show some (0 * g) = some 0; rw [zero_mul])
    unfold pearson_correlation
    rcases hden with hden | hden <;> rw [hden] <;> cases pearsonNum n (l.map some) y
    · rfl
    · simp
    · rfl
    · rfl

/-! ### The circular-buffer discipline shared by `sliding_window`,
`vwap_history` and `raw_trade_queue`

All three C structs keep a pre-allocated buffer of fixed `capacity`, a
`head_idx` (oldest element), a `tail_idx` (next insertion point) and — for the
window and the history — an explicit `size` field, with
`tail_idx = (head_idx + size) % capacity`.  `Ring` models that layout once;
`contents` is the logical oldest-to-newest sequence of live elements. -/

structure Ring (α : Type) where
  buffer : List α
  capacity : ℕ
  head_idx : ℕ
  tail_idx : ℕ
  size : ℕ
  deriving DecidableEq

/-- Well-formedness of the ring fields, true of every ring the program builds. -/
def Ring.WF {α : Type} (r : Ring α) : Prop :=
  r.buffer.length = r.capacity ∧ 0 < r.capacity ∧ r.head_idx < r.capacity ∧
    r.tail_idx < r.capacity ∧ r.size ≤ r.capacity ∧
    r.tail_idx = (r.head_idx + r.size) % r.capacity

instance {α : Type} (r : Ring α) : Decidable r.WF := by
  unfold Ring.WF
  infer_instance

/-- The live elements, oldest first: `size` elements starting at `head_idx`,
wrapping around the end of the buffer. -/
def Ring.contents {α : Type} (r : Ring α) : List α :=
  (r.buffer.drop r.head_idx ++ r.buffer.take r.head_idx).take r.size

/-- `head_idx = (head_idx + 1) % capacity; size--`: used by the sliding
window's prune and evict steps. -/
def Ring.popFront {α : Type} (r : Ring α) : Ring α :=
  { r with head_idx := (r.head_idx + 1) % r.capacity, size := r.size - 1 }

/-- `buffer[tail_idx] = e; tail_idx = (tail_idx + 1) % capacity; size++`:
used by the append steps of the window and the history. -/
def Ring.pushBack {α : Type} (r : Ring α) (e : α) : Ring α :=
  { r with buffer := r.buffer.set r.tail_idx e,
           tail_idx := (r.tail_idx + 1) % r.capacity, size := r.size + 1 }

theorem Ring.contents_length {α : Type} (r : Ring α) (hwf : r.WF) :
    r.contents.length = r.size := by
  obtain ⟨hlen, hcap, hhead, htail, hsize, -⟩ := hwf
  unfold contents
  rw [List.length_take, List.length_append, List.length_drop, List.length_take]
  omega

/-- Ring-to-logical index correspondence: element `k` of `contents` sits at
buffer position `(head_idx + k) % capacity`. -/
theorem Ring.getElem?_contents {α : Type} (r : Ring α) (hwf : r.WF) (k : ℕ)
    (hk : k < r.size) :
    r.contents[k]? = r.buffer[(r.head_idx + k) % r.capacity]? := by
  obtain ⟨hlen, hcap, hhead, htail, hsize, -⟩ := hwf
  unfold contents
  rw [List.getElem?_take]
  rw [if_pos hk]
  by_cases hcase : k < r.buffer.length - r.head_idx
  · rw [List.getElem?_append_left (by rw [List.length_drop]; exact hcase),
      List.getElem?_drop]
    have : (r.head_idx + k) % r.capacity = r.head_idx + k :=
      Nat.mod_eq_of_lt (by omega)
    rw [this]
  · rw [List.getElem?_append_right (by rw [List.length_drop]; omega),
      List.length_drop, List.getElem?_take]
    have hk2 : k - (r.buffer.length - r.head_idx) < r.head_idx := by omega
    rw [if_pos hk2]
    have hge : r.capacity ≤ r.head_idx + k := by omega
    have hmod : (r.head_idx + k) % r.capacity = r.head_idx + k - r.capacity := by
      rw [Nat.mod_eq_sub_mod hge]
      exact Nat.mod_eq_of_lt (by omega)
    rw [hmod]
    exact congrArg _ (by omega)

theorem Ring.WF_popFront {α : Type} (r : Ring α) (hwf : r.WF) (hpos : 0 < r.size) :
    r.popFront.WF := by
  obtain ⟨hlen, hcap, hhead, htail, hsize, htl⟩ := hwf
  refine ⟨hlen, hcap, Nat.mod_lt _ hcap, htail, by show r.size - 1 ≤ r.capacity; omega, ?_⟩
  show r.tail_idx = ((r.head_idx + 1) % r.capacity + (r.size - 1)) % r.capacity
  rw [Nat.mod_add_mod, htl]
  exact congrArg (· % r.capacity) (by omega)

theorem Ring.WF_pushBack {α : Type} (r : Ring α) (hwf : r.WF) (hlt : r.size < r.capacity)
    (e : α) : (r.pushBack e).WF := by
  obtain ⟨hlen, hcap, hhead, htail, hsize, htl⟩ := hwf
  refine ⟨?_, hcap, hhead, Nat.mod_lt _ hcap, by show r.size + 1 ≤ r.capacity; omega, ?_⟩
  · show (r.buffer.set r.tail_idx e).length = r.capacity
    rw [List.length_set]
    exact hlen
  · show (r.tail_idx + 1) % r.capacity = (r.head_idx + (r.size + 1)) % r.capacity
    rw [htl, Nat.mod_add_mod]
    exact congrArg (· % r.capacity) (by omega)

/-- Popping the front removes the oldest element of `contents`. -/
theorem Ring.contents_popFront {α : Type} (r : Ring α) (hwf : r.WF) (hpos : 0 < r.size) :
    r.popFront.contents = r.contents.drop 1 := by
  have hwf' := r.WF_popFront hwf hpos
  apply List.ext_getElem?
  intro k
  by_cases hk : k < r.size - 1
  · rw [Ring.getElem?_contents _ hwf' k hk, List.getElem?_drop,
      Ring.getElem?_contents _ hwf (1 + k) (by omega)]
    show r.buffer[((r.head_idx + 1) % r.capacity + k) % r.capacity]? = _
    rw [Nat.mod_add_mod]
    exact congrArg _ (congrArg (· % r.capacity) (by omega))
  · have h1 : r.popFront.contents.length = r.size - 1 := Ring.contents_length _ hwf'
    have h2 : (r.contents.drop 1).length = r.size - 1 := by
      rw [List.length_drop, r.contents_length hwf]
    rw [List.getElem?_eq_none (by omega), List.getElem?_eq_none (by omega)]

/-- The oldest element of a non-empty ring is `buffer[head_idx]`. -/
theorem Ring.contents_head {α : Type} (r : Ring α) (hwf : r.WF) (hpos : 0 < r.size)
    (d : α) : r.contents[0]? = some (r.buffer.getD r.head_idx d) := by
  have hlen := hwf.1
  have hhead := hwf.2.2.1
  rw [Ring.getElem?_contents r hwf 0 hpos, Nat.add_zero,
    Nat.mod_eq_of_lt (by omega), List.getD_eq_getElem?_getD,
    List.getElem?_eq_getElem (by omega)]
  rfl

/-- Pushing at the tail appends to `contents` (when the ring is not full). -/
theorem Ring.contents_pushBack {α : Type} (r : Ring α) (hwf : r.WF)
    (hlt : r.size < r.capacity) (e : α) :
    (r.pushBack e).contents = r.contents ++ [e] := by
  have hwf' := r.WF_pushBack hwf hlt e
  have hlen := hwf.1
  have hcap := hwf.2.1
  have htail := hwf.2.2.2.1
  have htl := hwf.2.2.2.2.2
  have hclen : r.contents.length = r.size := r.contents_length hwf
  apply List.ext_getElem?
  intro k
  rcases Nat.lt_trichotomy k r.size with hk | hk | hk
  · rw [Ring.getElem?_contents _ hwf' k (by show k < r.size + 1; omega)]
    show (r.buffer.set r.tail_idx e)[(r.head_idx + k) % r.capacity]? = _
    have hne : r.tail_idx ≠ (r.head_idx + k) % r.capacity := by
      intro hc
      have heq : (r.head_idx + k) % r.capacity = (r.head_idx + r.size) % r.capacity := by
        rw [← hc, htl]
      have h1 : k % r.capacity = r.size % r.capacity := Nat.ModEq.add_left_cancel' _ heq
      rw [Nat.mod_eq_of_lt (by omega), Nat.mod_eq_of_lt hlt] at h1
      omega
    rw [List.getElem?_set_ne hne, ← Ring.getElem?_contents _ hwf k hk,
      List.getElem?_append_left (by omega)]
  · rw [Ring.getElem?_contents _ hwf' k (by show k < r.size + 1; omega)]
    show (r.buffer.set r.tail_idx e)[(r.head_idx + k) % r.capacity]? = _
    have hidx : (r.head_idx + k) % r.capacity = r.tail_idx := by rw [htl, hk]
    rw [hidx, List.getElem?_set_eq_of_lt e (by omega),
      List.getElem?_append_right (by omega), hclen, hk, Nat.sub_self]
    rfl
  · have h1 : (r.pushBack e).contents.length = r.size + 1 := Ring.contents_length _ hwf'
    have h2 : (r.contents ++ [e]).length = r.size + 1 := by
      rw [List.length_append, hclen]
      rfl
    rw [List.getElem?_eq_none (by omega), List.getElem?_eq_none (by omega)]

/-- A non-empty ring's contents start with `buffer[head_idx]`, the rest being
the contents after a `popFront`. -/
theorem Ring.contents_cons {α : Type} (r : Ring α) (hwf : r.WF) (hpos : 0 < r.size)
    (d : α) : r.contents = r.buffer.getD r.head_idx d :: r.popFront.contents := by
  have hne : r.contents ≠ [] := by
    intro hc
    have := r.contents_length hwf
    rw [hc] at this
    simp at this
    omega
  have hhead : r.contents.head hne = r.buffer.getD r.head_idx d := by
    have h0 : r.contents[0]? = some (r.buffer.getD r.head_idx d) := r.contents_head hwf hpos d
    rw [List.getElem?_eq_getElem (by cases hl : r.contents with
      | nil => exact absurd hl hne
      | cons a l => simp)] at h0
    have := Option.some_injective _ h0
    rw [← this, List.getElem_zero]
  rw [r.contents_popFront hwf hpos, List.drop_one, ← hhead]
  exact (List.head_cons_tail _ hne).symm

/-! ### The sliding trade window, from `src/data/sliding_window.c`

The C struct keeps the ring fields plus the running sums `sum_price_volume`
and `sum_volume`; `Ring` bundles the ring fields, the sums sit alongside. -/

structure processed_trade where
  trade_ts_ms : ℤ
  price : ℚ
  size : ℚ
  deriving DecidableEq, Inhabited

structure sliding_window where
  win : Ring processed_trade
  sum_price_volume : ℚ
  sum_volume : ℚ
  deriving DecidableEq

/-- `sliding_window_init`: calloc'd (zeroed) buffer of `cap` trades,
`head_idx = tail_idx = size = 0`, zero sums.  The program always calls it with
`cap = WINDOW_CAPACITY`. -/
def sliding_window_init (cap : ℕ) : sliding_window :=
  ⟨⟨List.replicate cap default, cap, 0, 0, 0⟩, 0, 0⟩

/-- `buffer[head_idx]`, the entry the prune/evict steps read. -/
def headTrade (w : sliding_window) : processed_trade :=
  w.win.buffer.getD w.win.head_idx default

/-- One prune/evict step: subtract the head entry from both running sums and
advance the head. -/
def swPopOldest (w : sliding_window) : sliding_window :=
  { win := w.win.popFront,
    sum_price_volume := w.sum_price_volume - (headTrade w).price * (headTrade w).size,
    sum_volume := w.sum_volume - (headTrade w).size }

/-- The prune loop of `sliding_window_add_trade`:
`while (size > 0 && buffer[head_idx].trade_ts_ms < cutoff) { pop }`.
Each iteration decrements `size`, so running it with `fuel = size` is exact. -/
def swPrune : ℕ → ℤ → sliding_window → sliding_window
  | 0, _, w => w
  | fuel + 1, cutoff, w =>
    if 0 < w.win.size ∧ (headTrade w).trade_ts_ms < cutoff then
      swPrune fuel cutoff (swPopOldest w)
    else w

/-- `sliding_window_add_trade(w, ts_ms, price, size)`: (1) prune entries older
than `ts_ms - WINDOW_MS` from the head, (2) evict the head if the buffer is
full, (3) append the new trade at the tail and add it to the running sums. -/
def sliding_window_add_trade (w : sliding_window) (ts_ms : ℤ) (price size : ℚ) :
    sliding_window :=
  let w1 := swPrune w.win.size (ts_ms - WINDOW_MS) w
  let w2 := if w1.win.size = w1.win.capacity then swPopOldest w1 else w1
  { win := w2.win.pushBack ⟨ts_ms, price, size⟩,
    sum_price_volume := w2.sum_price_volume + price * size,
    sum_volume := w2.sum_volume + size }

/-- `sliding_window_snapshot_vwap`: `sum_price_volume / sum_volume` when
`sum_volume > 0`, NaN otherwise. -/
def sliding_window_snapshot_vwap (w : sliding_window) : DQ :=
  if 0 < w.sum_volume then some (w.sum_price_volume / w.sum_volume) else none

/-- Folding a list of `(ts_ms, price, size)` trades through
`sliding_window_add_trade`. -/
def applyTrades (w : sliding_window) (trades : List (ℤ × ℚ × ℚ)) : sliding_window :=
  trades.foldl (fun w t => sliding_window_add_trade w t.1 t.2.1 t.2.2) w

/-- The data-structure invariant: well-formed ring and running sums equal to
the naive recomputation over the live entries (exactly, in exact arithmetic —
which implies the spec's "within 1e-9 relative"). -/
def swInv (w : sliding_window) : Prop :=
  w.win.WF ∧
  w.sum_price_volume = (w.win.contents.map fun e => e.price * e.size).sum ∧
  w.sum_volume = (w.win.contents.map fun e => e.size).sum

/-- The claim's window-duration bound: every live entry's timestamp is within
`WINDOW_MS` of the newest live entry's.  Since the newest entry is itself
live, this is equivalently stated pairwise (bounding against the maximum
timestamp is the same as bounding against every timestamp). -/
def windowFresh (w : sliding_window) : Prop :=
  ∀ e ∈ w.win.contents, ∀ e' ∈ w.win.contents,
    e'.trade_ts_ms - WINDOW_MS ≤ e.trade_ts_ms

instance (w : sliding_window) : Decidable (windowFresh w) := by
  unfold windowFresh
  infer_instance

theorem swInv_init (cap : ℕ) (hcap : 0 < cap) : swInv (sliding_window_init cap) := by
  refine ⟨⟨?_, hcap, hcap, hcap, Nat.zero_le _, ?_⟩, ?_, ?_⟩
  · exact List.length_replicate cap default
  · show 0 = (0 + 0) % cap
    simp
  · rfl
  · rfl

theorem swInv_popOldest (w : sliding_window) (hinv : swInv w) (hpos : 0 < w.win.size) :
    swInv (swPopOldest w) := by
  obtain ⟨hwf, hpv, hv⟩ := hinv
  have hcons := w.win.contents_cons hwf hpos default
  refine ⟨w.win.WF_popFront hwf hpos, ?_, ?_⟩
  · show w.sum_price_volume - (headTrade w).price * (headTrade w).size
        = (List.map (fun e => e.price * e.size) w.win.popFront.contents).sum
    rw [hpv, hcons, List.map_cons, List.sum_cons]
    show (headTrade w).price * (headTrade w).size
          + (List.map (fun e => e.price * e.size) w.win.popFront.contents).sum
          - (headTrade w).price * (headTrade w).size = _
    ring
  · show w.sum_volume - (headTrade w).size
        = (List.map (fun e => e.size) w.win.popFront.contents).sum
    rw [hv, hcons, List.map_cons, List.sum_cons]
    show (headTrade w).size + (List.map (fun e => e.size) w.win.popFront.contents).sum
          - (headTrade w).size = _
    ring

theorem swInv_prune (fuel : ℕ) (cutoff : ℤ) (w : sliding_window) (hinv : swInv w) :
    swInv (swPrune fuel cutoff w) := by
  induction fuel generalizing w with
  | zero => exact hinv
  | succ fuel ih =>
    unfold swPrune
    by_cases hc : 0 < w.win.size ∧ (headTrade w).trade_ts_ms < cutoff
    · rw [if_pos hc]
      exact ih _ (swInv_popOldest w hinv hc.1)
    · rw [if_neg hc]
      exact hinv

theorem swInv_add (w : sliding_window) (hinv : swInv w) (ts_ms : ℤ) (price size : ℚ) :
    swInv (sliding_window_add_trade w ts_ms price size) := by
  have h1 : swInv (swPrune w.win.size (ts_ms - WINDOW_MS) w) := swInv_prune _ _ _ hinv
  set w1 := swPrune w.win.size (ts_ms - WINDOW_MS) w with hw1
  have h2 : swInv (if w1.win.size = w1.win.capacity then swPopOldest w1 else w1) := by
    by_cases hfull : w1.win.size = w1.win.capacity
    · rw [if_pos hfull]
      exact swInv_popOldest w1 h1 (by rw [hfull]; exact h1.1.2.1)
    · rw [if_neg hfull]
      exact h1
  set w2 := if w1.win.size = w1.win.capacity then swPopOldest w1 else w1 with hw2
  have hroom : w2.win.size < w2.win.capacity := by
    by_cases hfull : w1.win.size = w1.win.capacity
    · have : w2 = swPopOldest w1 := by rw [hw2, if_pos hfull]
      rw [this]
      show w1.win.size - 1 < w1.win.capacity
      have := h1.1.2.1
      omega
    · have : w2 = w1 := by rw [hw2, if_neg hfull]
      rw [this]
      exact lt_of_le_of_ne h1.1.2.2.2.2.1 hfull
  obtain ⟨hwf2, hpv2, hv2⟩ := h2
  have hpush := w2.win.contents_pushBack hwf2 hroom ⟨ts_ms, price, size⟩
  refine ⟨w2.win.WF_pushBack hwf2 hroom _, ?_, ?_⟩
  · show w2.sum_price_volume + price * size
        = (List.map (fun e => e.price * e.size)
            (w2.win.pushBack ⟨ts_ms, price, size⟩).contents).sum
    rw [hpush, List.map_append, List.sum_append, hpv2]
    simp
  · show w2.sum_volume + size
        = (List.map (fun e => e.size) (w2.win.pushBack ⟨ts_ms, price, size⟩).contents).sum
    rw [hpush, List.map_append, List.sum_append, hv2]
    simp

theorem swInv_applyTrades (w : sliding_window) (hinv : swInv w)
    (trades : List (ℤ × ℚ × ℚ)) : swInv (applyTrades w trades) := by
  induction trades generalizing w with
  | nil => exact hinv
  | cons t ts ih => exact ih _ (swInv_add w hinv t.1 t.2.1 t.2.2)

/-- Auxiliary invariant for non-decreasing trade feeds: the live timestamps are
sorted, bounded above by the last added timestamp `last`, and bounded below by
`last - WINDOW_MS`. -/
def BInv (w : sliding_window) (last : ℤ) : Prop :=
  (w.win.contents.map fun e => e.trade_ts_ms).Pairwise (· ≤ ·) ∧
  (∀ e ∈ w.win.contents, e.trade_ts_ms ≤ last) ∧
  (∀ e ∈ w.win.contents, last - WINDOW_MS ≤ e.trade_ts_ms)

theorem BInv_windowFresh (w : sliding_window) (last : ℤ) (hB : BInv w last) :
    windowFresh w := by
  intro e he e' he'
  have h1 := hB.2.1 e' he'
  have h2 := hB.2.2 e he
  omega

/-- The prune loop only drops elements from the front of the logical contents. -/
theorem swPrune_contents_drop (fuel : ℕ) (cutoff : ℤ) (w : sliding_window)
    (hinv : swInv w) :
    ∃ k, (swPrune fuel cutoff w).win.contents = w.win.contents.drop k := by
  induction fuel generalizing w with
  | zero => exact ⟨0, rfl⟩
  | succ fuel ih =>
    unfold swPrune
    by_cases hc : 0 < w.win.size ∧ (headTrade w).trade_ts_ms < cutoff
    · rw [if_pos hc]
      obtain ⟨k, hk⟩ := ih (swPopOldest w) (swInv_popOldest w hinv hc.1)
      refine ⟨k + 1, ?_⟩
      rw [hk]
      show w.win.popFront.contents.drop k = _
      rw [w.win.contents_popFront hinv.1 hc.1, List.drop_drop, Nat.add_comm]
    · rw [if_neg hc]
      exact ⟨0, rfl⟩

/-- When the prune loop is run with `fuel = size` it terminates with either an
empty window or a head entry at or after the cutoff — exactly the C loop's
postcondition. -/
theorem swPrune_post (fuel : ℕ) (cutoff : ℤ) (w : sliding_window)
    (hfuel : w.win.size ≤ fuel) :
    (swPrune fuel cutoff w).win.size = 0 ∨
      cutoff ≤ (headTrade (swPrune fuel cutoff w)).trade_ts_ms := by
  induction fuel generalizing w with
  | zero =>
    left
    unfold swPrune
    omega
  | succ fuel ih =>
    unfold swPrune
    by_cases hc : 0 < w.win.size ∧ (headTrade w).trade_ts_ms < cutoff
    · rw [if_pos hc]
      exact ih (swPopOldest w) (by show w.win.size - 1 ≤ fuel; omega)
    · rw [if_neg hc]
      by_cases hz : 0 < w.win.size
      · right
        exact le_of_not_lt fun hlt => hc ⟨hz, hlt⟩
      · left
        omega

/-- In a window with sorted timestamps every live entry is at or after the head. -/
theorem all_ge_head (w : sliding_window) (hwf : w.win.WF) (hpos : 0 < w.win.size)
    (hsort : (w.win.contents.map fun e => e.trade_ts_ms).Pairwise (· ≤ ·)) :
    ∀ e ∈ w.win.contents, (headTrade w).trade_ts_ms ≤ e.trade_ts_ms := by
  have hcons := w.win.contents_cons hwf hpos default
  intro e he
  rw [hcons] at he hsort
  rw [List.map_cons] at hsort
  rcases List.mem_cons.1 he with rfl | hrest
  · exact le_of_eq rfl
  · exact (List.pairwise_cons.1 hsort).1 e.trade_ts_ms (List.mem_map_of_mem _ hrest)

/-- One `add_trade` with a timestamp at or after the previous one re-establishes
the sorted-and-fresh invariant anchored at the new timestamp. -/
theorem BInv_add (w : sliding_window) (last ts_ms : ℤ) (price size : ℚ)
    (hinv : swInv w) (hB : BInv w last) (hts : last ≤ ts_ms) :
    BInv (sliding_window_add_trade w ts_ms price size) ts_ms := by
  obtain ⟨hsort, hle, _⟩ := hB
  have h1 : swInv (swPrune w.win.size (ts_ms - WINDOW_MS) w) := swInv_prune _ _ _ hinv
  set w1 := swPrune w.win.size (ts_ms - WINDOW_MS) w with hw1
  obtain ⟨k, hk⟩ := swPrune_contents_drop w.win.size (ts_ms - WINDOW_MS) w hinv
  have hsort1 : (w1.win.contents.map fun e => e.trade_ts_ms).Pairwise (· ≤ ·) := by
    rw [← hw1] at hk
    rw [hk, List.map_drop]
    exact hsort.sublist (List.drop_sublist _ _)
  have hle1 : ∀ e ∈ w1.win.contents, e.trade_ts_ms ≤ last := by
    rw [← hw1] at hk
    intro e he
    exact hle e ((List.drop_sublist _ _).mem (hk ▸ he))
  have hge1 : ∀ e ∈ w1.win.contents, ts_ms - WINDOW_MS ≤ e.trade_ts_ms := by
    rcases swPrune_post w.win.size (ts_ms - WINDOW_MS) w (le_refl _) with hz | hhd
    · intro e he
      rw [← hw1] at hz
      have := w1.win.contents_length h1.1
      rw [hz] at this
      rw [List.length_eq_zero.1 this] at he
      cases he
    · rw [← hw1] at hhd
      intro e he
      have hpos : 0 < w1.win.size := by
        by_contra hc
        have := w1.win.contents_length h1.1
        have hz : w1.win.contents.length = 0 := by omega
        rw [List.length_eq_zero.1 hz] at he
        cases he
      exact le_trans hhd (all_ge_head w1 h1.1 hpos hsort1 e he)
  have h2 : swInv (if w1.win.size = w1.win.capacity then swPopOldest w1 else w1) := by
    by_cases hfull : w1.win.size = w1.win.capacity
    · rw [if_pos hfull]
      exact swInv_popOldest w1 h1 (by rw [hfull]; exact h1.1.2.1)
    · rw [if_neg hfull]
      exact h1
  set w2 := if w1.win.size = w1.win.capacity then swPopOldest w1 else w1 with hw2
  have hk2 : ∃ j, w2.win.contents = w1.win.contents.drop j := by
    by_cases hfull : w1.win.size = w1.win.capacity
    · refine ⟨1, ?_⟩
      have : w2 = swPopOldest w1 := by rw [hw2, if_pos hfull]
      rw [this]
      exact w1.win.contents_popFront h1.1 (by rw [hfull]; exact h1.1.2.1)
    · refine ⟨0, ?_⟩
      have : w2 = w1 := by rw [hw2, if_neg hfull]
      rw [this, List.drop_zero]
  obtain ⟨j, hj⟩ := hk2
  have hsort2 : (w2.win.contents.map fun e => e.trade_ts_ms).Pairwise (· ≤ ·) := by
    rw [hj, List.map_drop]
    exact hsort1.sublist (List.drop_sublist _ _)
  have hle2 : ∀ e ∈ w2.win.contents, e.trade_ts_ms ≤ last := fun e he =>
    hle1 e ((List.drop_sublist _ _).mem (hj ▸ he))
  have hge2 : ∀ e ∈ w2.win.contents, ts_ms - WINDOW_MS ≤ e.trade_ts_ms := fun e he =>
    hge1 e ((List.drop_sublist _ _).mem (hj ▸ he))
  have hroom : w2.win.size < w2.win.capacity := by
    by_cases hfull : w1.win.size = w1.win.capacity
    · have : w2 = swPopOldest w1 := by rw [hw2, if_pos hfull]
      rw [this]
      show w1.win.size - 1 < w1.win.capacity
      have := h1.1.2.1
      omega
    · have : w2 = w1 := by rw [hw2, if_neg hfull]
      rw [this]
      exact lt_of_le_of_ne h1.1.2.2.2.2.1 hfull
  have hpush := w2.win.contents_pushBack h2.1 hroom ⟨ts_ms, price, size⟩
  have hgoal_contents :
      (sliding_window_add_trade w ts_ms price size).win.contents
        = w2.win.contents ++ [⟨ts_ms, price, size⟩] := hpush
  refine ⟨?_, ?_, ?_⟩
  · rw [hgoal_contents, List.map_append]
    rw [List.pairwise_append]
    refine ⟨hsort2, List.pairwise_singleton _ _, ?_⟩
    intro x hx y hy
    obtain ⟨e, he, rfl⟩ := List.mem_map.1 hx
    rcases List.mem_singleton.1 hy with rfl
    exact le_trans (hle2 e he) hts
  · rw [hgoal_contents]
    intro e he
    rcases List.mem_append.1 he with h | h
    · exact le_trans (hle2 e h) hts
    · rcases List.mem_singleton.1 h with rfl
      exact le_refl _
  · rw [hgoal_contents]
    intro e he
    rcases List.mem_append.1 he with h | h
    · exact hge2 e h
    · rcases List.mem_singleton.1 h with rfl
      show ts_ms - WINDOW_MS ≤ ts_ms
      have : (0 : ℤ) ≤ WINDOW_MS := by decide
      omega

theorem BInv_applyTrades (trades : List (ℤ × ℚ × ℚ)) (w : sliding_window) (last : ℤ)
    (hinv : swInv w) (hB : BInv w last) (hfirst : ∀ t ∈ trades, last ≤ t.1)
    (hsorted : (trades.map fun t => t.1).Pairwise (· ≤ ·)) :
    ∃ l, BInv (applyTrades w trades) l := by
  induction trades generalizing w last with
  | nil => exact ⟨last, hB⟩
  | cons t ts ih =>
    have hB' := BInv_add w last t.1 t.2.1 t.2.2 hinv hB (hfirst t (List.mem_cons_self t ts))
    rw [List.map_cons, List.pairwise_cons] at hsorted
    exact ih _ t.1 (swInv_add w hinv t.1 t.2.1 t.2.2) hB'
      (fun t' ht' => hsorted.1 t'.1 (List.mem_map_of_mem _ ht')) hsorted.2

/-- **C1** (amended).  For every sliding window and every finite sequence of
`sliding_window_add_trade` calls, after each call the stored running sums equal
the naive recomputation over the live entries (exactly, hence within the
spec's 1e-9 relative tolerance); and, provided the trade timestamps are fed in
non-decreasing order, every live entry satisfies
`trade_ts_ms ≥ newest.trade_ts_ms − WINDOW_MS` (stated pairwise in
`windowFresh`, which is equivalent to bounding against the newest entry).
The freshness bound does not hold for arbitrary (out-of-order) timestamps —
see the counterexample. -/
theorem sliding_window_sums_exact_and_fresh_of_monotone (cap : ℕ) (hcap : 0 < cap)
    (trades : List (ℤ × ℚ × ℚ)) :
    ((applyTrades (sliding_window_init cap) trades).sum_price_volume
        = ((applyTrades (sliding_window_init cap) trades).win.contents.map
            fun e => e.price * e.size).sum
      ∧ (applyTrades (sliding_window_init cap) trades).sum_volume
          = ((applyTrades (sliding_window_init cap) trades).win.contents.map
              fun e => e.size).sum)
    ∧ ((trades.map fun t => t.1).Pairwise (· ≤ ·) →
        windowFresh (applyTrades (sliding_window_init cap) trades)) := by
  have hinv := swInv_applyTrades _ (swInv_init cap hcap) trades
  refine ⟨⟨hinv.2.1, hinv.2.2⟩, ?_⟩
  intro hsorted
  cases trades with
  | nil =>
    intro e he e' he'
    have hnil : (applyTrades (sliding_window_init cap) []).win.contents = [] := by
      show ((List.replicate cap default).drop 0 ++ (List.replicate cap default).take 0).take 0 = []
      rfl
    rw [hnil] at he
    cases he
  | cons t ts =>
    have hc0 : (sliding_window_init cap).win.contents = [] := by
      show ((List.replicate cap default).drop 0 ++ (List.replicate cap default).take 0).take 0 = []
      rfl
    have hB0 : BInv (sliding_window_init cap) t.1 := by
      refine ⟨?_, ?_, ?_⟩ <;> rw [hc0]
      · exact List.Pairwise.nil
      · intro e he; cases he
      · intro e he; cases he
    rw [List.map_cons, List.pairwise_cons] at hsorted
    have hfirst : ∀ t' ∈ t :: ts, t.1 ≤ t'.1 := by
      intro t' ht'
      rcases List.mem_cons.1 ht' with rfl | h
      · exact le_refl _
      · exact hsorted.1 t'.1 (List.mem_map_of_mem _ h)
    obtain ⟨l, hB⟩ := BInv_applyTrades (t :: ts) _ t.1 (swInv_init cap hcap) hB0 hfirst
      (by rw [List.map_cons, List.pairwise_cons]; exact hsorted)
    exact BInv_windowFresh _ l hB

/-- An out-of-order feed: trades at 1000000 ms, then 0 ms, then 900001 ms. -/
def cxTrades : List (ℤ × ℚ × ℚ) := [(1000000, 1, 1), (0, 1, 1), (900001, 1, 1)]

/-- The program's sliding window after the out-of-order feed `cxTrades`. -/
def cxWindow : sliding_window := applyTrades (sliding_window_init WINDOW_CAPACITY) cxTrades

/-- The spec's scenario S2: in-order trades at 0, `WINDOW_MS`, `WINDOW_MS + 1`. -/
def s2Trades : List (ℤ × ℚ × ℚ) := [(0, 100, 1), (900000, 200, 1), (900001, 300, 1)]

/-- The program's sliding window after the S2 feed. -/
def s2Window : sliding_window := applyTrades (sliding_window_init WINDOW_CAPACITY) s2Trades

/-- **C1** counterexample: with out-of-order (but per the claim "arbitrary")
timestamps the freshness bound of the claim fails.  Feeding trades at
1000000 ms, 0 ms, then 900001 ms into a fresh window of the program's capacity
leaves the stale 0 ms entry live although both the newest-by-timestamp entry
(1000000 ms) and the last-appended entry (900001 ms) are more than
`WINDOW_MS = 900000` ms ahead of it: the prune loop stops at the in-range head
entry and never reaches the stale middle one. -/
theorem sliding_window_fresh_cx :
    ¬ ((cxWindow.sum_price_volume
          = (cxWindow.win.contents.map fun e => e.price * e.size).sum
        ∧ cxWindow.sum_volume = (cxWindow.win.contents.map fun e => e.size).sum)
      ∧ windowFresh cxWindow) :=
  fun h => absurd h.2 (by decide)

/-- **C1** witness: the amended theorem applied at the spec's scenario S2 —
three in-order trades at 0, `WINDOW_MS` and `WINDOW_MS + 1`. -/
theorem sliding_window_sums_witness :
    0 < WINDOW_CAPACITY ∧
    ((s2Window.sum_price_volume
        = (s2Window.win.contents.map fun e => e.price * e.size).sum
      ∧ s2Window.sum_volume = (s2Window.win.contents.map fun e => e.size).sum)
    ∧ ((s2Trades.map fun t => t.1).Pairwise (· ≤ ·) → windowFresh s2Window)) :=
  ⟨by decide,
    sliding_window_sums_exact_and_fresh_of_monotone WINDOW_CAPACITY (by decide) s2Trades⟩

/-! ### VWAP history, from `src/data/vwap_history.c` -/

structure vwap_point where
  minute_ts_ms : ℤ
  vwap : DQ
  deriving DecidableEq, Inhabited

/-- `vwap_history_init(h, capacity)`: calloc'd buffer, zero indices. -/
def vwap_history_init (capacity : ℕ) : Ring vwap_point :=
  ⟨List.replicate capacity default, capacity, 0, 0, 0⟩

/-- `vwap_history_append`: evict the oldest point when full, then append at the
tail. -/
def vwap_history_append (h : Ring vwap_point) (minute_ts_ms : ℤ) (vwap : DQ) :
    Ring vwap_point :=
  let h1 := if h.size = h.capacity then h.popFront else h
  h1.pushBack ⟨minute_ts_ms, vwap⟩

/-- `vwap_history_get_recent(h, n, out)`: fails when fewer than `n` points are
stored; otherwise copies the `n` newest points in chronological order, starting
`n` entries back from the tail.  The C start index `(tail_idx - n + capacity) %
capacity` is written `(tail_idx + capacity - n) % capacity`, the same value for
`n ≤ size ≤ capacity` (where the C `int` arithmetic is non-negative). -/
def vwap_history_get_recent (h : Ring vwap_point) (n : ℕ) : Option (List vwap_point) :=
  if h.size < n then none
  else
    let start_idx := (h.tail_idx + h.capacity - n) % h.capacity
    some ((List.range n).map fun i => h.buffer.getD ((start_idx + i) % h.capacity) default)

/-! ### `find_best_lagged_correlation`, from `src/compute/correlation.c`

The embedded code function iterates offsets exactly as the C `for` loop does,
reading the candidate windows through the ring indices; the fold state is
`none` while `found_match` is 0 and `some (best_corr, best_end_minute)` after.
`find_best_spec` is the same search phrased over the logical (oldest-to-
newest) list of history entries, following the spec's words; the refinement
theorem proves the two agree on well-formed histories. -/

/-- The loop body of `find_best_lagged_correlation` for one `offset`. -/
def findBestStep (src_vec : List DQ) (target_hist : Ring vwap_point)
    (window_len : ℕ) (best : Option ((ℚ × ℚ) × ℤ)) (offset : ℕ) :
    Option ((ℚ × ℚ) × ℤ) :=
  let window_start_idx :=
    (target_hist.head_idx + target_hist.size - window_len - offset) % target_hist.capacity
  let target_vec := (List.range window_len).map fun i =>
    (target_hist.buffer.getD ((window_start_idx + i) % target_hist.capacity) default).vwap
  match pearson_correlation src_vec target_vec window_len with
  | none => best
  | some p =>
    let better := match best with
      | none => true
      | some (pb, _) => fabsGtB p pb
    if better then
      let end_idx := (window_start_idx + window_len - 1) % target_hist.capacity
      some (p, (target_hist.buffer.getD end_idx default).minute_ts_ms)
    else best

/-- `find_best_lagged_correlation(src_vec, target_hist, window_len,
min_offset_min, max_lag_min, &out_corr, &out_minute_ts_ms)`: the returned pair
is `(out_corr, out_minute_ts_ms)`, with `none` for the NaN no-result. -/
def find_best_lagged_correlation (src_vec : List DQ) (target_hist : Ring vwap_point)
    (window_len min_offset_min max_lag_min : ℕ) : Option (ℚ × ℚ) × ℤ :=
  let hist_len := target_hist.size
  if hist_len < window_len + min_offset_min then (none, 0)
  else
    let max_offset_min := hist_len - window_len
    let max_search_offset := min max_lag_min max_offset_min
    match (List.range' min_offset_min (max_search_offset + 1 - min_offset_min)).foldl
        (findBestStep src_vec target_hist window_len) none with
    | none => (none, 0)
    | some (p, ts) => (some p, ts)

/-- The spec's best-of accumulator: skip NaN candidates; keep the first seen,
then replace only on strictly larger `|corr|` (ties keep the earlier offset). -/
def selectBestCand (best : Option ((ℚ × ℚ) × ℤ)) (cand : Option (ℚ × ℚ) × ℤ) :
    Option ((ℚ × ℚ) × ℤ) :=
  match cand.1 with
  | none => best
  | some p =>
    match best with
    | none => some (p, cand.2)
    | some (pb, tsb) => if fabsGtB p pb then some (p, cand.2) else some (pb, tsb)

/-- The spec's candidate list: for each `offset ∈ [min_off, min(len − P, cap)]`
the Pearson result of `src` against the `P` consecutive entries ending `offset`
positions before the tail, paired with the `minute_ts_ms` of the window's last
entry. -/
def specCandidates (src : List DQ) (entries : List vwap_point) (P minOff cap : ℕ) :
    List (Option (ℚ × ℚ) × ℤ) :=
  (List.range' minOff (min cap (entries.length - P) + 1 - minOff)).map fun offset =>
    let window := (entries.drop (entries.length - P - offset)).take P
    (pearson_correlation src (window.map fun pt => pt.vwap) P,
      (window.getLast?.getD default).minute_ts_ms)

/-- The lag search as the spec words it, over the logical entry list. -/
def find_best_spec (src : List DQ) (entries : List vwap_point) (P minOff cap : ℕ) :
    Option ((ℚ × ℚ) × ℤ) :=
  if entries.length < P + minOff then none
  else (specCandidates src entries P minOff cap).foldl selectBestCand none

theorem foldl_ext_mem {α β : Type} (f g : β → α → β) (l : List α)
    (h : ∀ s, ∀ a ∈ l, f s a = g s a) (s : β) : l.foldl f s = l.foldl g s := by
  induction l generalizing s with
  | nil => rfl
  | cons a as ih =>
    rw [List.foldl_cons, List.foldl_cons, h s a (List.mem_cons_self a as)]
    exact ih (fun s a ha => h s a (List.mem_cons_of_mem _ ha)) _

/-- The ring read at logical window position `i` (for the window at lag
`offset`) is element `size - P - offset + i` of the logical contents. -/
theorem findBest_ring_elem (hist : Ring vwap_point) (hwf : hist.WF) (P off i : ℕ)
    (hoff : P + off ≤ hist.size) (hi : i < P) :
    hist.buffer[((hist.head_idx + hist.size - P - off) % hist.capacity + i)
      % hist.capacity]? = hist.contents[hist.size - P - off + i]? := by
  have hcap := hwf.2.1
  have hlen := hwf.1
  rw [Nat.mod_add_mod]
  have harg : hist.head_idx + hist.size - P - off + i
      = hist.head_idx + (hist.size - P - off + i) := by omega
  rw [harg, ← Ring.getElem?_contents hist hwf _ (by omega)]

/-- The candidate vector the C code extracts through the ring equals the `P`
consecutive logical entries ending `offset` before the tail. -/
theorem findBest_window_eq (hist : Ring vwap_point) (hwf : hist.WF) (P off : ℕ)
    (hoff : P + off ≤ hist.size) :
    (List.range P).map (fun i => hist.buffer.getD
        (((hist.head_idx + hist.size - P - off) % hist.capacity + i) % hist.capacity)
        default)
      = (hist.contents.drop (hist.size - P - off)).take P := by
  have hcap := hwf.2.1
  have hlen := hwf.1
  have hclen : hist.contents.length = hist.size := hist.contents_length hwf
  apply List.ext_getElem?
  intro k
  by_cases hk : k < P
  · have hidxlt : ((hist.head_idx + hist.size - P - off) % hist.capacity + k)
        % hist.capacity < hist.buffer.length := by
      rw [hlen]
      exact Nat.mod_lt _ hcap
    rw [List.getElem?_map, List.getElem?_range hk]
    show some (hist.buffer.getD _ default) = _
    rw [List.getElem?_take, if_pos hk, List.getElem?_drop]
    rw [← findBest_ring_elem hist hwf P off k hoff hk]
    rw [List.getD_eq_getElem?_getD, List.getElem?_eq_getElem hidxlt]
    rfl
  · rw [List.getElem?_eq_none (by rw [List.length_map, List.length_range]; omega),
      List.getElem?_eq_none (by rw [List.length_take]; omega)]

/-- The `minute_ts_ms` the C code reads at `end_idx` is that of the last entry
of the logical window. -/
theorem findBest_end_eq (hist : Ring vwap_point) (hwf : hist.WF) (P off : ℕ)
    (hP : 0 < P) (hoff : P + off ≤ hist.size) :
    hist.buffer.getD
        (((hist.head_idx + hist.size - P - off) % hist.capacity + P - 1) % hist.capacity)
        default
      = ((hist.contents.drop (hist.size - P - off)).take P).getLast?.getD default := by
  have hcap := hwf.2.1
  have hlen := hwf.1
  have hclen : hist.contents.length = hist.size := hist.contents_length hwf
  have hwlen : ((hist.contents.drop (hist.size - P - off)).take P).length = P := by
    rw [List.length_take, List.length_drop, hclen]
    omega
  have hstep : (hist.head_idx + hist.size - P - off) % hist.capacity + P - 1
      = (hist.head_idx + hist.size - P - off) % hist.capacity + (P - 1) := by omega
  rw [hstep]
  have helem := findBest_ring_elem hist hwf P off (P - 1) hoff (by omega)
  have hwindow : ((hist.contents.drop (hist.size - P - off)).take P)[P - 1]?
      = hist.contents[hist.size - P - off + (P - 1)]? := by
    rw [List.getElem?_take, if_pos (by omega), List.getElem?_drop]
  have hlast : ((hist.contents.drop (hist.size - P - off)).take P).getLast?
      = hist.contents[hist.size - P - off + (P - 1)]? := by
    rw [List.getLast?_eq_getElem?, hwlen, hwindow]
  have hidxlt : ((hist.head_idx + hist.size - P - off) % hist.capacity + (P - 1))
      % hist.capacity < hist.buffer.length := by
    rw [hlen]
    exact Nat.mod_lt _ hcap
  rw [List.getD_eq_getElem?_getD, List.getElem?_eq_getElem hidxlt, hlast, ← helem,
    List.getElem?_eq_getElem hidxlt]

/-- One loop iteration of the C search equals one `selectBestCand` step on the
corresponding spec candidate. -/
theorem findBestStep_eq_selectBestCand (src : List DQ) (hist : Ring vwap_point)
    (P off : ℕ) (hwf : hist.WF) (hP : 0 < P) (hoff2 : P + off ≤ hist.size)
    (s : Option ((ℚ × ℚ) × ℤ)) :
    findBestStep src hist P s off
      = selectBestCand s
          (pearson_correlation src
            (((hist.contents.drop (hist.size - P - off)).take P).map
              fun pt => pt.vwap) P,
            (((hist.contents.drop (hist.size - P - off)).take P).getLast?.getD
              default).minute_ts_ms) := by
  have hwin := findBest_window_eq hist hwf P off hoff2
  have hend := findBest_end_eq hist hwf P off hP hoff2
  have hvec : (List.range P).map (fun i => (hist.buffer.getD
        (((hist.head_idx + hist.size - P - off) % hist.capacity + i) % hist.capacity)
        default).vwap)
      = ((hist.contents.drop (hist.size - P - off)).take P).map fun pt => pt.vwap := by
    rw [← hwin, List.map_map]
    exact List.map_congr_left fun i _ => rfl
  simp only [findBestStep, selectBestCand]
  rw [hvec, hend]
  cases pearson_correlation src
      (((hist.contents.drop (hist.size - P - off)).take P).map fun pt => pt.vwap) P with
  | none => rfl
  | some p =>
    cases s with
    | none => rfl
    | some pb =>
      cases hfb : fabsGtB p pb.1 <;> simp [hfb]

/-- Helper for C2/C5/C7: on a well-formed history,
`find_best_lagged_correlation` computes exactly the spec-side search over the
logical contents. -/
theorem find_best_eq_spec (src : List DQ) (hist : Ring vwap_point) (P minOff cap : ℕ)
    (hwf : hist.WF) (hP : 0 < P) :
    find_best_lagged_correlation src hist P minOff cap =
      match find_best_spec src hist.contents P minOff cap with
      | none => (none, 0)
      | some (p, ts) => (some p, ts) := by
  have hclen : hist.contents.length = hist.size := hist.contents_length hwf
  unfold find_best_lagged_correlation find_best_spec
  rw [hclen]
  by_cases hsz : hist.size < P + minOff
  · rw [if_pos hsz, if_pos hsz]
  · rw [if_neg hsz, if_neg hsz]
    have hfold : (List.range' minOff (min cap (hist.size - P) + 1 - minOff)).foldl
        (findBestStep src hist P) none
        = (specCandidates src hist.contents P minOff cap).foldl selectBestCand none := by
      unfold specCandidates
      rw [hclen, List.foldl_map]
      refine foldl_ext_mem _ _ _ ?_ _
      intro s off hmem
      have hb := List.mem_range'_1.1 hmem
      have hminle : min cap (hist.size - P) ≤ hist.size - P := min_le_right _ _
      have hoff2 : P + off ≤ hist.size := by omega
      exact findBestStep_eq_selectBestCand src hist P off hwf hP hoff2 s
    dsimp only
    rw [hfold]

/-- **C2**: `find_best_lagged_correlation(src, hist, P, min_off, cap)` returns
NaN (with timestamp 0) when `hist.size < P + min_off`; otherwise it examines
every offset in `[min_off, min(hist.size − P, cap)]`, where the candidate
window is the `P` consecutive logical history entries ending `offset`
positions before the tail, and returns the candidate of maximum absolute
Pearson correlation among the non-NaN ones — ties broken in favor of the
smallest (first-seen) offset — together with the `minute_ts_ms` of the last
entry of the chosen window (`find_best_spec` transliterates exactly that
description).  The second conjunct certifies that the cross-multiplied
comparison used in the search agrees with comparing true absolute values. -/
theorem find_best_lagged_refines_spec (src : List DQ) (hist : Ring vwap_point)
    (P minOff cap : ℕ) (hwf : hist.WF) (hP : 0 < P) :
    (find_best_lagged_correlation src hist P minOff cap =
      match find_best_spec src hist.contents P minOff cap with
      | none => (none, 0)
      | some (p, ts) => (some p, ts))
    ∧ (∀ c best : ℚ × ℚ, 0 < c.2 → 0 < best.2 →
        (fabsGtB c best = true ↔ |corrVal best| < |corrVal c|)) :=
  ⟨find_best_eq_spec src hist P minOff cap hwf hP,
    fun _ _ hc hb => fabsGtB_iff_corrVal hc hb⟩

/-- A small well-formed wrapped history: capacity 4, head at slot 2, three live
points (slot 1 is a dead slot).  Logical contents: minutes 60000, 120000,
180000 with VWAPs 2, 5, 7. -/
def demoHist : Ring vwap_point :=
  ⟨[⟨180000, some 7⟩, ⟨999, none⟩, ⟨60000, some 2⟩, ⟨120000, some 5⟩], 4, 2, 1, 3⟩

/-- **C2** witness: the refinement theorem applied to `demoHist` with `P = 2`,
`min_off = 0`, `cap = 1`. -/
theorem find_best_lagged_refines_witness :
    (demoHist.WF ∧ 0 < 2) ∧
    ((find_best_lagged_correlation [some 1, some 2] demoHist 2 0 1 =
      match find_best_spec [some 1, some 2] demoHist.contents 2 0 1 with
      | none => (none, 0)
      | some (p, ts) => (some p, ts))
    ∧ (∀ c best : ℚ × ℚ, 0 < c.2 → 0 < best.2 →
        (fabsGtB c best = true ↔ |corrVal best| < |corrVal c|))) :=
  ⟨⟨by decide, by decide⟩,
    find_best_lagged_refines_spec [some 1, some 2] demoHist 2 0 1 (by decide) (by decide)⟩

/-! ### Monotonicity of the best-of search in the lag cap (C7) -/

/-- `|a| ≤ |b|` on search states, a NaN no-result counting as smaller than
everything; on found results the comparison is the cross-multiplied absolute
comparison of `corrVal`s. -/
def candLE (a b : Option ((ℚ × ℚ) × ℤ)) : Prop :=
  match a, b with
  | none, _ => True
  | some _, none => False
  | some (pa, _), some (pb, _) => pa.1 ^ 2 * pb.2 ≤ pb.1 ^ 2 * pa.2

/-- A search state carries a positive squared denominator (true of every state
the search reaches, since candidates come from `pearson_correlation`). -/
def posDen2 : Option ((ℚ × ℚ) × ℤ) → Prop
  | none => True
  | some (p, _) => 0 < p.2

/-- Candidate lists whose non-NaN correlations have positive `den2`. -/
def candsOK (l : List (Option (ℚ × ℚ) × ℤ)) : Prop :=
  ∀ cand ∈ l, ∀ p : ℚ × ℚ, cand.1 = some p → 0 < p.2

theorem specCandidates_candsOK (src : List DQ) (entries : List vwap_point)
    (P minOff cap : ℕ) : candsOK (specCandidates src entries P minOff cap) := by
  intro cand hcand p hp
  unfold specCandidates at hcand
  obtain ⟨off, -, rfl⟩ := List.mem_map.1 hcand
  exact pearson_den2_pos hp

theorem candLE_refl (a : Option ((ℚ × ℚ) × ℤ)) : candLE a a := by
  rcases a with _ | ⟨pa, ts⟩
  · trivial
  · exact le_refl _

theorem candLE_trans (a b c : Option ((ℚ × ℚ) × ℤ)) (hab : candLE a b) (hbc : candLE b c)
    (ha : posDen2 a) (hb : posDen2 b) (hc : posDen2 c) : candLE a c := by
  rcases a with _ | ⟨pa, tsa⟩
  · trivial
  · rcases b with _ | ⟨pb, tsb⟩
    · exact absurd hab (by simp [candLE])
    · rcases c with _ | ⟨pc, tsc⟩
      · exact absurd hbc (by simp [candLE])
      · show pa.1 ^ 2 * pc.2 ≤ pc.1 ^ 2 * pa.2
        have h1 : pa.1 ^ 2 * pb.2 ≤ pb.1 ^ 2 * pa.2 := hab
        have h2 : pb.1 ^ 2 * pc.2 ≤ pc.1 ^ 2 * pb.2 := hbc
        have ha2 : (0 : ℚ) ≤ pa.2 := le_of_lt ha
        have hc2 : (0 : ℚ) ≤ pc.2 := le_of_lt hc
        have hb2 : (0 : ℚ) < pb.2 := hb
        have h3 : pa.1 ^ 2 * pb.2 * pc.2 ≤ pb.1 ^ 2 * pa.2 * pc.2 :=
          mul_le_mul_of_nonneg_right h1 hc2
        have h4 : pb.1 ^ 2 * pc.2 * pa.2 ≤ pc.1 ^ 2 * pb.2 * pa.2 :=
          mul_le_mul_of_nonneg_right h2 ha2
        have h5 : pa.1 ^ 2 * pc.2 * pb.2 ≤ pc.1 ^ 2 * pa.2 * pb.2 := by nlinarith
        exact le_of_mul_le_mul_right h5 hb2

theorem posDen2_selectBestCand (s : Option ((ℚ × ℚ) × ℤ)) (c : Option (ℚ × ℚ) × ℤ)
    (hs : posDen2 s) (hc : ∀ p : ℚ × ℚ, c.1 = some p → 0 < p.2) :
    posDen2 (selectBestCand s c) := by
  rcases c with ⟨c1, ts⟩
  rcases c1 with _ | p
  · exact hs
  · rcases s with _ | ⟨pb, tsb⟩
    · exact hc p rfl
    · show posDen2 (if fabsGtB p pb = true then some (p, ts) else some (pb, tsb))
      by_cases hfb : fabsGtB p pb = true
      · rw [if_pos hfb]
        exact hc p rfl
      · rw [if_neg hfb]
        exact hs

theorem posDen2_foldl (l : List (Option (ℚ × ℚ) × ℤ)) (s : Option ((ℚ × ℚ) × ℤ))
    (hs : posDen2 s) (hl : candsOK l) : posDen2 (l.foldl selectBestCand s) := by
  induction l generalizing s with
  | nil => exact hs
  | cons c cs ih =>
    rw [List.foldl_cons]
    exact ih _ (posDen2_selectBestCand s c hs (hl c (List.mem_cons_self c cs)))
      (fun cand hcand => hl cand (List.mem_cons_of_mem _ hcand))

theorem candLE_selectBestCand (s : Option ((ℚ × ℚ) × ℤ)) (c : Option (ℚ × ℚ) × ℤ) :
    candLE s (selectBestCand s c) := by
  rcases c with ⟨c1, ts⟩
  rcases c1 with _ | p
  · exact candLE_refl s
  · rcases s with _ | ⟨pb, tsb⟩
    · trivial
    · show candLE (some (pb, tsb)) (if fabsGtB p pb = true then some (p, ts) else some (pb, tsb))
      by_cases hfb : fabsGtB p pb = true
      · rw [if_pos hfb]
        show pb.1 ^ 2 * p.2 ≤ p.1 ^ 2 * pb.2
        exact le_of_lt (of_decide_eq_true hfb)
      · rw [if_neg hfb]
        exact candLE_refl _

theorem candLE_foldl (l : List (Option (ℚ × ℚ) × ℤ)) (s : Option ((ℚ × ℚ) × ℤ))
    (hs : posDen2 s) (hl : candsOK l) : candLE s (l.foldl selectBestCand s) := by
  induction l generalizing s with
  | nil => exact candLE_refl s
  | cons c cs ih =>
    rw [List.foldl_cons]
    have hcok := hl c (List.mem_cons_self c cs)
    have hcsok : candsOK cs := fun cand hcand => hl cand (List.mem_cons_of_mem _ hcand)
    have hstep := candLE_selectBestCand s c
    have hspos := posDen2_selectBestCand s c hs hcok
    exact candLE_trans s (selectBestCand s c) _ hstep (ih _ hspos hcsok) hs hspos
      (posDen2_foldl cs _ hspos hcsok)

/-- **C7**: for fixed source vector, history, window length and minimum offset,
extending the maximum-lag cap never decreases the absolute value of the best
correlation found by `find_best_lagged_correlation` — a NaN no-result counting
as smaller than any found result. -/
theorem find_best_monotone_in_cap (src : List DQ) (hist : Ring vwap_point)
    (P minOff cap1 cap2 : ℕ) (hwf : hist.WF) (hP : 0 < P) (hcap : cap1 ≤ cap2) :
    (find_best_lagged_correlation src hist P minOff cap1).1 = none
    ∨ (∃ p1 p2 : ℚ × ℚ,
        (find_best_lagged_correlation src hist P minOff cap1).1 = some p1
        ∧ (find_best_lagged_correlation src hist P minOff cap2).1 = some p2
        ∧ |corrVal p1| ≤ |corrVal p2|) := by
  rw [find_best_eq_spec src hist P minOff cap1 hwf hP,
    find_best_eq_spec src hist P minOff cap2 hwf hP]
  unfold find_best_spec
  by_cases hsz : hist.contents.length < P + minOff
  · rw [if_pos hsz, if_pos hsz]
    exact Or.inl rfl
  · rw [if_neg hsz, if_neg hsz]
    have hn12 : min cap1 (hist.contents.length - P) + 1 - minOff
        ≤ min cap2 (hist.contents.length - P) + 1 - minOff := by
      have := min_le_min_right (hist.contents.length - P) hcap
      omega
    have hsplit : List.range' minOff (min cap2 (hist.contents.length - P) + 1 - minOff)
        = List.range' minOff (min cap1 (hist.contents.length - P) + 1 - minOff)
          ++ List.range' (minOff + (min cap1 (hist.contents.length - P) + 1 - minOff))
            ((min cap2 (hist.contents.length - P) + 1 - minOff)
              - (min cap1 (hist.contents.length - P) + 1 - minOff)) := by
      have h := List.range'_append minOff
        (min cap1 (hist.contents.length - P) + 1 - minOff)
        ((min cap2 (hist.contents.length - P) + 1 - minOff)
          - (min cap1 (hist.contents.length - P) + 1 - minOff)) 1
      rw [one_mul] at h
      rw [h]
      exact congrArg (List.range' minOff) (Nat.sub_add_cancel hn12).symm
    have hcands2 : specCandidates src hist.contents P minOff cap2
        = specCandidates src hist.contents P minOff cap1
          ++ (List.range' (minOff + (min cap1 (hist.contents.length - P) + 1 - minOff))
            ((min cap2 (hist.contents.length - P) + 1 - minOff)
              - (min cap1 (hist.contents.length - P) + 1 - minOff))).map
            (fun offset =>
              (pearson_correlation src
                (((hist.contents.drop (hist.contents.length - P - offset)).take P).map
                  fun pt => pt.vwap) P,
                (((hist.contents.drop (hist.contents.length - P - offset)).take
                  P).getLast?.getD default).minute_ts_ms)) := by
      unfold specCandidates
      rw [hsplit, List.map_append]
    have hok1 : candsOK (specCandidates src hist.contents P minOff cap1) :=
      specCandidates_candsOK src hist.contents P minOff cap1
    have hokx : candsOK ((List.range' (minOff + (min cap1 (hist.contents.length - P)
          + 1 - minOff)) ((min cap2 (hist.contents.length - P) + 1 - minOff)
            - (min cap1 (hist.contents.length - P) + 1 - minOff))).map
          (fun offset =>
            (pearson_correlation src
              (((hist.contents.drop (hist.contents.length - P - offset)).take P).map
                fun pt => pt.vwap) P,
              (((hist.contents.drop (hist.contents.length - P - offset)).take
                P).getLast?.getD default).minute_ts_ms))) := by
      intro cand hcand p hp
      obtain ⟨off, -, rfl⟩ := List.mem_map.1 hcand
      exact pearson_den2_pos hp
    rw [hcands2, List.foldl_append]
    rcases hr1 : (specCandidates src hist.contents P minOff cap1).foldl selectBestCand
        none with _ | r1
    · exact Or.inl rfl
    · have hpos1 : posDen2 (some r1) := by
        have := posDen2_foldl (specCandidates src hist.contents P minOff cap1) none
          trivial hok1
        rwa [hr1] at this
      rcases hr2 : List.foldl selectBestCand (some r1) ((List.range' (minOff
          + (min cap1 (hist.contents.length - P) + 1 - minOff))
          ((min cap2 (hist.contents.length - P) + 1 - minOff)
            - (min cap1 (hist.contents.length - P) + 1 - minOff))).map
          (fun offset =>
            (pearson_correlation src
              (((hist.contents.drop (hist.contents.length - P - offset)).take P).map
                fun pt => pt.vwap) P,
              (((hist.contents.drop (hist.contents.length - P - offset)).take
                P).getLast?.getD default).minute_ts_ms))) with _ | r2
      · have hgrow := candLE_foldl _ (some r1) hpos1 hokx
        rw [hr2] at hgrow
        exact absurd hgrow (by rcases r1 with ⟨p1, ts1⟩; simp [candLE])
      · have hgrow := candLE_foldl _ (some r1) hpos1 hokx
        have hpos2 := posDen2_foldl _ (some r1) hpos1 hokx
        rw [hr2] at hgrow hpos2
        refine Or.inr ⟨r1.1, r2.1, rfl, rfl, ?_⟩
        have hcross : r1.1.1 ^ 2 * r2.1.2 ≤ r2.1.1 ^ 2 * r1.1.2 := hgrow
        have hp1 : 0 < r1.1.2 := hpos1
        have hp2 : 0 < r2.1.2 := hpos2
        have hfb : fabsGtB r1.1 r2.1 = false := by
          unfold fabsGtB
          exact decide_eq_false (not_lt.2 hcross)
        exact (not_fabsGtB_iff_corrVal hp1 hp2).1 hfb

/-- **C7** witness: the monotonicity theorem applied to `demoHist` with caps
1 ≤ 5. -/
theorem find_best_monotone_witness :
    (demoHist.WF ∧ 0 < 2 ∧ 1 ≤ 5) ∧
    ((find_best_lagged_correlation [some 1, some 2] demoHist 2 0 1).1 = none
    ∨ (∃ p1 p2 : ℚ × ℚ,
        (find_best_lagged_correlation [some 1, some 2] demoHist 2 0 1).1 = some p1
        ∧ (find_best_lagged_correlation [some 1, some 2] demoHist 2 0 5).1 = some p2
        ∧ |corrVal p1| ≤ |corrVal p2|)) :=
  ⟨⟨by decide, by decide, by decide⟩,
    find_best_monotone_in_cap [some 1, some 2] demoHist 2 0 1 5 (by decide) (by decide)
      (by decide)⟩

/-- **C6**: Pearson is symmetric in its two vectors (as full results, hence as
values), and the self-correlation of a NaN-free non-constant vector is exactly
`1.0`. -/
theorem pearson_symm_and_self_one :
    (∀ (x y : List DQ) (n : ℕ), x.length = y.length →
        pearson_correlation x y n = pearson_correlation y x n)
    ∧ (∀ (x : List ℚ) (a b : ℚ), a ∈ x → b ∈ x → a ≠ b →
        ∃ p : ℚ × ℚ,
          pearson_correlation (x.map some) (x.map some) x.length = some p
            ∧ corrVal p = 1) := by
  constructor
  · intro x y n _
    unfold pearson_correlation
    rw [pearsonNum_comm, pearsonDen2_comm]
  · intro x a b ha hb hab
    exact pearson_self_eq_one x a b ha hb hab

/-- **C6** witness: symmetry at two concrete length-2 vectors (one carrying a
NaN) and self-correlation `1.0` at the non-constant vector `[0, 1]`. -/
theorem pearson_symm_witness :
    (([some 1, some 2] : List DQ).length = ([some 3, none] : List DQ).length
      ∧ (0 : ℚ) ∈ ([0, 1] : List ℚ) ∧ (1 : ℚ) ∈ ([0, 1] : List ℚ) ∧ (0 : ℚ) ≠ 1)
    ∧ pearson_correlation [some 1, some 2] [some 3, none] 2
        = pearson_correlation [some 3, none] [some 1, some 2] 2
    ∧ (∃ p : ℚ × ℚ,
        pearson_correlation (([0, 1] : List ℚ).map some) (([0, 1] : List ℚ).map some)
          ([0, 1] : List ℚ).length = some p ∧ corrVal p = 1) :=
  ⟨⟨by decide, by decide, by decide, by decide⟩,
    pearson_symm_and_self_one.1 [some 1, some 2] [some 3, none] 2 (by decide),
    pearson_symm_and_self_one.2 [0, 1] 0 1 (by decide) (by decide) (by decide)⟩

/-! ### The correlation worker loop, from `correlation_worker_fn` in
`src/compute/correlation.c`

For source symbol `i` the worker reads the `MOVING_AVG_POINTS` most recent
history points (skipping the symbol when there are fewer), then searches every
target symbol `j < NUM_SYMBOLS` with `min_offset_min = MOVING_AVG_POINTS` when
`j == i` and `0` otherwise, keeping the target of maximum `fabs(corr)` with
first-seen tie-break, and emits one CSV row `(best_j, corr, ts)` iff any
search found a non-NaN result.  `correlationRow` returns that row (`none` when
nothing is emitted). -/

/-- The worker's choice of minimum lag: skip the overlapping window on
self-correlation. -/
def minOffsetFor (i j : ℕ) : ℕ := if i = j then MOVING_AVG_POINTS else 0

/-- One iteration of the worker's inner loop over target symbol `j`. -/
def correlationStep (hists : List (Ring vwap_point)) (src_vwap_vec : List DQ) (i : ℕ)
    (best : Option (ℕ × (ℚ × ℚ) × ℤ)) (j : ℕ) : Option (ℕ × (ℚ × ℚ) × ℤ) :=
  let res := find_best_lagged_correlation src_vwap_vec
    (hists.getD j (vwap_history_init 0)) MOVING_AVG_POINTS (minOffsetFor i j)
    MAX_LAG_MINUTES
  match res.1 with
  | none => best
  | some p =>
    match best with
    | none => some (j, p, res.2)
    | some (jb, pb, tsb) => if fabsGtB p pb then some (j, p, res.2) else some (jb, pb, tsb)

/-- The worker's inner loop over all target symbols for one source symbol. -/
def correlationSearch (hists : List (Ring vwap_point)) (i : ℕ)
    (src_points : List vwap_point) : Option (ℕ × (ℚ × ℚ) × ℤ) :=
  (List.range NUM_SYMBOLS).foldl
    (correlationStep hists (src_points.map fun pt => pt.vwap) i) none

/-- The correlation row the worker emits for source symbol `i` this minute:
`none` when the symbol is skipped for lack of history or every target search
returns NaN. -/
def correlationRow (hists : List (Ring vwap_point)) (i : ℕ) :
    Option (ℕ × (ℚ × ℚ) × ℤ) :=
  match vwap_history_get_recent (hists.getD i (vwap_history_init 0)) MOVING_AVG_POINTS with
  | none => none
  | some src_points => correlationSearch hists i src_points

/-- A row `(j, p, ts)` is sound: the search against target `j` (with the
min-offset the worker chose for `j`) returned exactly `(some p, ts)`. -/
def okRes (hists : List (Ring vwap_point)) (src : List DQ) (i : ℕ)
    (r : ℕ × (ℚ × ℚ) × ℤ) : Prop :=
  find_best_lagged_correlation src (hists.getD r.1 (vwap_history_init 0))
    MOVING_AVG_POINTS (minOffsetFor i r.1) MAX_LAG_MINUTES = (some r.2.1, r.2.2)

theorem foldl_correlationStep_okRes (hists : List (Ring vwap_point)) (src : List DQ)
    (i : ℕ) (l : List ℕ) (s : Option (ℕ × (ℚ × ℚ) × ℤ)) (res : ℕ × (ℚ × ℚ) × ℤ)
    (hs : ∀ r, s = some r → okRes hists src i r)
    (hfold : l.foldl (correlationStep hists src i) s = some res) :
    okRes hists src i res := by
  induction l generalizing s with
  | nil => exact hs res hfold
  | cons j js ih =>
    rw [List.foldl_cons] at hfold
    refine ih (correlationStep hists src i s j) ?_ hfold
    intro r hr
    unfold correlationStep at hr
    dsimp only at hr
    rcases hres : (find_best_lagged_correlation src (hists.getD j (vwap_history_init 0))
        MOVING_AVG_POINTS (minOffsetFor i j) MAX_LAG_MINUTES).1 with _ | p
    · rw [hres] at hr
      exact hs r hr
    · rw [hres] at hr
      rcases s with _ | ⟨jb, pb, tsb⟩
      · cases hr
        show find_best_lagged_correlation src (hists.getD j (vwap_history_init 0))
          MOVING_AVG_POINTS (minOffsetFor i j) MAX_LAG_MINUTES = (some p, _)
        rw [← hres]
      · dsimp only at hr
        by_cases hfb : fabsGtB p pb = true
        · rw [if_pos hfb] at hr
          cases hr
          show find_best_lagged_correlation src (hists.getD j (vwap_history_init 0))
            MOVING_AVG_POINTS (minOffsetFor i j) MAX_LAG_MINUTES = (some p, _)
          rw [← hres]
        · rw [if_neg hfb] at hr
          exact hs r hr

/-- A found best always corresponds to some candidate of the list (or to the
start state). -/
theorem foldl_selectBestCand_some (l : List (Option (ℚ × ℚ) × ℤ))
    (s : Option ((ℚ × ℚ) × ℤ)) (r : (ℚ × ℚ) × ℤ)
    (hfold : l.foldl selectBestCand s = some r) :
    s = some r ∨ (some r.1, r.2) ∈ l := by
  induction l generalizing s with
  | nil => exact Or.inl hfold
  | cons c cs ih =>
    rw [List.foldl_cons] at hfold
    rcases ih (selectBestCand s c) hfold with h | h
    · rcases c with ⟨c1, ts⟩
      rcases c1 with _ | p
      · exact Or.inl h
      · rcases s with _ | ⟨pb, tsb⟩
        · cases h
          exact Or.inr (List.mem_cons_self _ _)
        · have h' : (if fabsGtB p pb = true then some (p, ts) else some (pb, tsb))
              = some r := h
          by_cases hfb : fabsGtB p pb = true
          · rw [if_pos hfb] at h'
            cases h'
            exact Or.inr (List.mem_cons_self _ _)
          · rw [if_neg hfb] at h'
            exact Or.inl h'
    · exact Or.inr (List.mem_cons_of_mem _ h)

/-- On a history whose points sit on consecutive minutes ending at minute `M`,
a found best at minimum offset `minOff` has its window-end timestamp at least
`minOff` minutes before `M`. -/
theorem find_best_ts_bound (src : List DQ) (hist : Ring vwap_point)
    (P minOff cap : ℕ) (p : ℚ × ℚ) (ts M : ℤ) (hwf : hist.WF) (hP : 0 < P)
    (hconsec : ∀ k, k < hist.contents.length →
      (hist.contents.getD k default).minute_ts_ms
        = M - ((hist.contents.length - 1 - k : ℕ) : ℤ) * MS_PER_MINUTE)
    (hres : find_best_lagged_correlation src hist P minOff cap = (some p, ts)) :
    ts ≤ M - (minOff : ℤ) * MS_PER_MINUTE := by
  rw [find_best_eq_spec src hist P minOff cap hwf hP] at hres
  rcases hspec : find_best_spec src hist.contents P minOff cap with _ | r
  · rw [hspec] at hres
    exact absurd hres (by simp)
  · rw [hspec] at hres
    obtain ⟨p', ts'⟩ := r
    have hres' : (some p', ts') = ((some p : Option (ℚ × ℚ)), ts) := hres
    have hts' : ts' = ts := (Prod.ext_iff.1 hres').2
    unfold find_best_spec at hspec
    by_cases hsz : hist.contents.length < P + minOff
    · rw [if_pos hsz] at hspec
      exact absurd hspec (by simp)
    · rw [if_neg hsz] at hspec
      rcases foldl_selectBestCand_some _ none _ hspec with h | h
      · exact absurd h (by simp)
      · unfold specCandidates at h
        obtain ⟨off, hoffmem, heq⟩ := List.mem_map.1 h
        obtain ⟨hoff1, hoff2⟩ := List.mem_range'_1.1 hoffmem
        have hminle : min cap (hist.contents.length - P) ≤ hist.contents.length - P :=
          min_le_right _ _
        have hoffle : off ≤ hist.contents.length - P := by omega
        have hPoff : P + off ≤ hist.contents.length := by omega
        have htseq : ts'
            = (((hist.contents.drop (hist.contents.length - P - off)).take
                P).getLast?.getD default).minute_ts_ms := by
          have := (Prod.ext_iff.1 heq).2
          dsimp only at this
          exact this.symm
        have hwlen : ((hist.contents.drop (hist.contents.length - P - off)).take P).length
            = P := by
          rw [List.length_take, List.length_drop]
          omega
        have hk : hist.contents.length - P - off + (P - 1) < hist.contents.length := by
          omega
        have hlast : ((hist.contents.drop (hist.contents.length - P - off)).take
            P).getLast?
            = hist.contents[hist.contents.length - P - off + (P - 1)]? := by
          rw [List.getLast?_eq_getElem?, hwlen, List.getElem?_take, if_pos (by omega),
            List.getElem?_drop]
        have hgd : hist.contents[hist.contents.length - P - off + (P - 1)]?
            = some (hist.contents.getD (hist.contents.length - P - off + (P - 1))
                default) := by
          rw [List.getD_eq_getElem?_getD, List.getElem?_eq_getElem hk]
          rfl
        have hval := hconsec (hist.contents.length - P - off + (P - 1)) hk
        have hidx : hist.contents.length - 1 - (hist.contents.length - P - off + (P - 1))
            = off := by omega
        rw [hidx] at hval
        have : ts' = M - (off : ℤ) * MS_PER_MINUTE := by
          rw [htseq, hlast, hgd]
          exact hval
        rw [← hts', this]
        have hcast : (minOff : ℤ) ≤ (off : ℤ) := by exact_mod_cast hoff1
        have hms : (0 : ℤ) < MS_PER_MINUTE := by decide
        nlinarith

/-- **C5**: the correlation worker uses `min_offset = MOVING_AVG_POINTS = 8`
when comparing a symbol against itself (`j == i`) and `0` otherwise;
consequently, when symbol `i`'s history points sit on consecutive minutes
ending at a minute `M ≤ curM` (the minute-driven writer appends one point per
minute), any emitted correlation row whose best-matching symbol is `i` itself
carries a target-window end timestamp at most `curM − 8` minutes. -/
theorem correlation_self_skips_overlap (hists : List (Ring vwap_point)) (i : ℕ)
    (M curM : ℤ) (hwf : (hists.getD i (vwap_history_init 0)).WF)
    (hconsec : ∀ k, k < (hists.getD i (vwap_history_init 0)).contents.length →
      ((hists.getD i (vwap_history_init 0)).contents.getD k default).minute_ts_ms
        = M - (((hists.getD i (vwap_history_init 0)).contents.length - 1 - k : ℕ) : ℤ)
            * MS_PER_MINUTE)
    (hM : M ≤ curM) :
    minOffsetFor i i = MOVING_AVG_POINTS
    ∧ (∀ j, i ≠ j → minOffsetFor i j = 0)
    ∧ (∀ p ts, correlationRow hists i = some (i, p, ts) →
        ts ≤ curM - (MOVING_AVG_POINTS : ℤ) * MS_PER_MINUTE) := by
  refine ⟨by simp [minOffsetFor], fun j hij => by simp [minOffsetFor, hij], ?_⟩
  intro p ts hrow
  unfold correlationRow at hrow
  rcases hrec : vwap_history_get_recent (hists.getD i (vwap_history_init 0))
      MOVING_AVG_POINTS with _ | src_points
  · rw [hrec] at hrow
    exact absurd hrow (by simp)
  · rw [hrec] at hrow
    have hfold : correlationSearch hists i src_points = some (i, p, ts) := hrow
    unfold correlationSearch at hfold
    generalize hg : (src_points.map fun pt => pt.vwap) = srcv at hfold
    have hok : okRes hists srcv i (i, p, ts) :=
      foldl_correlationStep_okRes hists srcv i
        (List.range NUM_SYMBOLS) none (i, p, ts)
        (fun r hr => absurd hr (fun hc => Option.noConfusion hc)) hfold
    unfold okRes at hok
    dsimp only at hok
    rw [show minOffsetFor i i = MOVING_AVG_POINTS from by simp [minOffsetFor]] at hok
    have := find_best_ts_bound srcv
      (hists.getD i (vwap_history_init 0)) MOVING_AVG_POINTS MOVING_AVG_POINTS
      MAX_LAG_MINUTES p ts M hwf (by decide) hconsec hok
    have hms : (0 : ℤ) ≤ (MOVING_AVG_POINTS : ℤ) * MS_PER_MINUTE := by decide
    omega

/-- A well-formed 16-point history on consecutive minutes 0, 60000, …, 900000
with distinct VWAPs (scenario S4's shape). -/
def demoHistLinear : Ring vwap_point :=
  ⟨[⟨0, some 1⟩, ⟨60000, some 2⟩, ⟨120000, some 3⟩, ⟨180000, some 4⟩,
    ⟨240000, some 5⟩, ⟨300000, some 6⟩, ⟨360000, some 7⟩, ⟨420000, some 8⟩,
    ⟨480000, some 9⟩, ⟨540000, some 10⟩, ⟨600000, some 11⟩, ⟨660000, some 12⟩,
    ⟨720000, some 13⟩, ⟨780000, some 14⟩, ⟨840000, some 15⟩, ⟨900000, some 16⟩],
    16, 0, 0, 16⟩

/-- **C5** witness: the theorem applied to symbol 0 backed by the 16-point
consecutive-minute history `demoHistLinear` at current minute 900000. -/
theorem correlation_self_skips_overlap_witness :
    ((([demoHistLinear] : List (Ring vwap_point)).getD 0 (vwap_history_init 0)).WF
      ∧ (∀ k, k < (([demoHistLinear] : List (Ring vwap_point)).getD 0
            (vwap_history_init 0)).contents.length →
          ((([demoHistLinear] : List (Ring vwap_point)).getD 0
              (vwap_history_init 0)).contents.getD k default).minute_ts_ms
            = 900000 - ((([demoHistLinear] : List (Ring vwap_point)).getD 0
                (vwap_history_init 0)).contents.length - 1 - k : ℕ) * MS_PER_MINUTE)
      ∧ (900000 : ℤ) ≤ 900000)
    ∧ (minOffsetFor 0 0 = MOVING_AVG_POINTS
      ∧ (∀ j, 0 ≠ j → minOffsetFor 0 j = 0)
      ∧ (∀ p ts, correlationRow [demoHistLinear] 0 = some (0, p, ts) →
          ts ≤ 900000 - (MOVING_AVG_POINTS : ℤ) * MS_PER_MINUTE)) :=
  ⟨⟨by decide, by decide, by decide⟩,
    correlation_self_skips_overlap [demoHistLinear] 0 900000 900000 (by decide)
      (by decide) (by decide)⟩

/-! ### Degenerate sources: constant vectors (C8) and the NaN sentinel (C10)

`vwap_worker_fn` appends `sliding_window_snapshot_vwap`'s result to the
history unmodified, so a minute with no trades stores the NaN sentinel; the
correlation worker then sees it through `vwap_history_get_recent`.  Both a
constant source vector (zero variance) and a NaN anywhere in a compared
window make `pearson_correlation` return NaN, the loop bodies skip NaN
candidates, and a fold whose every candidate is NaN ends with no result. -/

theorem foldl_const {α β : Type} (f : β → α → β) (h : ∀ s a, f s a = s) :
    ∀ (l : List α) (s : β), l.foldl f s = s := by
  intro l
  induction l with
  | nil => intro s; rfl
  | cons a as ih =>
    intro s
    rw [List.foldl_cons, h]
    exact ih s

/-- When every Pearson call on `src` returns NaN, the lag search reports the
NaN no-result `(NAN, 0)` whatever the history, window length, minimum offset
and lag cap. -/
theorem find_best_always_none (src : List DQ) (hist : Ring vwap_point)
    (P minOff cap : ℕ)
    (hp : ∀ y : List DQ, pearson_correlation src y P = none) :
    find_best_lagged_correlation src hist P minOff cap = (none, 0) := by
  unfold find_best_lagged_correlation
  dsimp only
  by_cases hsz : hist.size < P + minOff
  · rw [if_pos hsz]
  · rw [if_neg hsz]
    have hstep : ∀ (s : Option ((ℚ × ℚ) × ℤ)) (off : ℕ),
        findBestStep src hist P s off = s := by
      intro s off
      unfold findBestStep
      dsimp only
      rw [hp]
    rw [foldl_const _ hstep]

/-- When every Pearson call on the source vector returns NaN, the worker's
inner loop never finds a match and no row is emitted for symbol `i`. -/
theorem correlationRow_none (hists : List (Ring vwap_point)) (i : ℕ)
    (src_points : List vwap_point)
    (hrec : vwap_history_get_recent (hists.getD i (vwap_history_init 0))
        MOVING_AVG_POINTS = some src_points)
    (hp : ∀ y : List DQ, pearson_correlation (src_points.map fun pt => pt.vwap) y
        MOVING_AVG_POINTS = none) :
    correlationRow hists i = none := by
  unfold correlationRow
  rw [hrec]
  show correlationSearch hists i src_points = none
  unfold correlationSearch
  generalize hg : (src_points.map fun pt => pt.vwap) = srcv at hp ⊢
  have hstep : ∀ (s : Option (ℕ × (ℚ × ℚ) × ℤ)) (j : ℕ),
      correlationStep hists srcv i s j = s := by
    intro s j
    unfold correlationStep
    dsimp only
    rw [find_best_always_none srcv (hists.getD j (vwap_history_init 0))
      MOVING_AVG_POINTS (minOffsetFor i j) MAX_LAG_MINUTES hp]
  rw [foldl_const _ hstep]

/-- `vwap_history_get_recent` returns exactly `n` points on success. -/
theorem vwap_history_get_recent_length (h : Ring vwap_point) (n : ℕ)
    (l : List vwap_point) (hrec : vwap_history_get_recent h n = some l) :
    l.length = n := by
  unfold vwap_history_get_recent at hrec
  by_cases hsz : h.size < n
  · rw [if_pos hsz] at hrec
    exact absurd hrec (by simp)
  · rw [if_neg hsz] at hrec
    dsimp only at hrec
    have hl := Option.some_injective _ hrec
    rw [← hl]
    simp

/-- **C8**: when the worker's 8-point source vector is constant, the Pearson
variance term `n·Σx² − (Σx)²` is zero, so the denominator is zero and
`pearson_correlation` returns NaN against every target window; the lag search
therefore reports the NaN no-result against every target history with every
minimum offset and lag cap, and the worker emits no correlation row for that
symbol this minute. -/
theorem constant_src_no_row (hists : List (Ring vwap_point)) (i : ℕ)
    (src_points : List vwap_point)
    (hrec : vwap_history_get_recent (hists.getD i (vwap_history_init 0))
        MOVING_AVG_POINTS = some src_points)
    (hconst : ∀ a ∈ src_points.map fun pt => pt.vwap,
        ∀ b ∈ src_points.map fun pt => pt.vwap, a = b) :
    (∀ y : List DQ, pearson_correlation (src_points.map fun pt => pt.vwap) y
        MOVING_AVG_POINTS = none)
    ∧ (∀ (hist : Ring vwap_point) (minOff cap : ℕ),
        find_best_lagged_correlation (src_points.map fun pt => pt.vwap) hist
          MOVING_AVG_POINTS minOff cap = (none, 0))
    ∧ correlationRow hists i = none := by
  have hlen : (src_points.map fun pt => pt.vwap).length = MOVING_AVG_POINTS := by
    rw [List.length_map]
    exact vwap_history_get_recent_length _ _ _ hrec
  have hp : ∀ y : List DQ, pearson_correlation (src_points.map fun pt => pt.vwap) y
      MOVING_AVG_POINTS = none :=
    fun y => pearson_const_none _ _ hlen hconst y
  exact ⟨hp, fun hist minOff cap => find_best_always_none _ hist _ minOff cap hp,
    correlationRow_none hists i src_points hrec hp⟩

/-- A well-formed 8-point history with the constant VWAP 5 on consecutive
minutes (scenario S6's shape). -/
def demoHistConst : Ring vwap_point :=
  ⟨[⟨0, some 5⟩, ⟨60000, some 5⟩, ⟨120000, some 5⟩, ⟨180000, some 5⟩,
    ⟨240000, some 5⟩, ⟨300000, some 5⟩, ⟨360000, some 5⟩, ⟨420000, some 5⟩],
    8, 0, 0, 8⟩

/-- The recent points `demoHistConst` yields. -/
def demoConstPoints : List vwap_point :=
  [⟨0, some 5⟩, ⟨60000, some 5⟩, ⟨120000, some 5⟩, ⟨180000, some 5⟩,
    ⟨240000, some 5⟩, ⟨300000, some 5⟩, ⟨360000, some 5⟩, ⟨420000, some 5⟩]

/-- **C8** witness: the theorem applied to symbol 0 backed by the constant
8-point history `demoHistConst`. -/
theorem constant_src_no_row_witness :
    (vwap_history_get_recent (([demoHistConst] : List (Ring vwap_point)).getD 0
        (vwap_history_init 0)) MOVING_AVG_POINTS = some demoConstPoints
      ∧ ∀ a ∈ demoConstPoints.map fun pt => pt.vwap,
          ∀ b ∈ demoConstPoints.map fun pt => pt.vwap, a = b)
    ∧ ((∀ y : List DQ, pearson_correlation (demoConstPoints.map fun pt => pt.vwap) y
          MOVING_AVG_POINTS = none)
      ∧ (∀ (hist : Ring vwap_point) (minOff cap : ℕ),
          find_best_lagged_correlation (demoConstPoints.map fun pt => pt.vwap) hist
            MOVING_AVG_POINTS minOff cap = (none, 0))
      ∧ correlationRow [demoHistConst] 0 = none) :=
  ⟨⟨by decide, by decide⟩,
    constant_src_no_row [demoHistConst] 0 demoConstPoints (by decide) (by decide)⟩

/-- **C10**: the NaN VWAP sentinel propagates and is excluded.  A zero-volume
minute snapshots to NaN; `vwap_history_append` stores the passed value (NaN
included) unmodified in the tail slot; a NaN among the `n` compared points of
either vector makes `pearson_correlation` return NaN; a NaN candidate leaves
the lag search's running best unchanged; and a symbol whose most recent 8
history points include a NaN emits no correlation row this minute. -/
theorem nan_sentinel_excluded (hists : List (Ring vwap_point)) (i : ℕ)
    (src_points : List vwap_point)
    (hrec : vwap_history_get_recent (hists.getD i (vwap_history_init 0))
        MOVING_AVG_POINTS = some src_points)
    (hnan : none ∈ src_points.map fun pt => pt.vwap) :
    (∀ w : sliding_window, ¬ 0 < w.sum_volume →
        sliding_window_snapshot_vwap w = none)
    ∧ (∀ (h : Ring vwap_point) (t : ℤ) (v : DQ), h.tail_idx < h.buffer.length →
        (vwap_history_append h t v).buffer.getD h.tail_idx default
          = (⟨t, v⟩ : vwap_point))
    ∧ (∀ (x y : List DQ) (n : ℕ), none ∈ x.take n →
        pearson_correlation x y n = none)
    ∧ (∀ (x y : List DQ) (n : ℕ), none ∈ y.take n →
        pearson_correlation x y n = none)
    ∧ (∀ (src : List DQ) (hist : Ring vwap_point) (P : ℕ)
        (best : Option ((ℚ × ℚ) × ℤ)) (off : ℕ),
        pearson_correlation src ((List.range P).map fun k =>
          (hist.buffer.getD (((hist.head_idx + hist.size - P - off) % hist.capacity + k)
            % hist.capacity) default).vwap) P = none →
        findBestStep src hist P best off = best)
    ∧ correlationRow hists i = none := by
  refine ⟨?_, ?_, fun x y n h => pearson_none_of_nan_left x y n h,
    fun x y n h => pearson_none_of_nan_right x y n h, ?_, ?_⟩
  · intro w hv
    unfold sliding_window_snapshot_vwap
    rw [if_neg hv]
  · intro h t v hlt
    have hbuf : (vwap_history_append h t v).buffer = h.buffer.set h.tail_idx ⟨t, v⟩ := by
      unfold vwap_history_append
      dsimp only
      by_cases hfull : h.size = h.capacity
      · rw [if_pos hfull]
        rfl
      · rw [if_neg hfull]
        rfl
    rw [hbuf, List.getD_eq_getElem?_getD, List.getElem?_set_eq_of_lt _ hlt]
    rfl
  · intro src hist P best off hno
    unfold findBestStep
    dsimp only
    rw [hno]
  · have hlen : (src_points.map fun pt => pt.vwap).length = MOVING_AVG_POINTS := by
      rw [List.length_map]
      exact vwap_history_get_recent_length _ _ _ hrec
    refine correlationRow_none hists i src_points hrec fun y => ?_
    refine pearson_none_of_nan_left _ y _ ?_
    rw [← hlen, List.take_length]
    exact hnan

/-- A well-formed 8-point history on consecutive minutes whose third point
carries the NaN sentinel (a tradeless minute). -/
def demoHistNaN : Ring vwap_point :=
  ⟨[⟨0, some 1⟩, ⟨60000, some 2⟩, ⟨120000, none⟩, ⟨180000, some 4⟩,
    ⟨240000, some 5⟩, ⟨300000, some 6⟩, ⟨360000, some 7⟩, ⟨420000, some 8⟩],
    8, 0, 0, 8⟩

/-- The recent points `demoHistNaN` yields. -/
def demoNaNPoints : List vwap_point :=
  [⟨0, some 1⟩, ⟨60000, some 2⟩, ⟨120000, none⟩, ⟨180000, some 4⟩,
    ⟨240000, some 5⟩, ⟨300000, some 6⟩, ⟨360000, some 7⟩, ⟨420000, some 8⟩]

/-- **C10** witness: the theorem applied to symbol 0 backed by `demoHistNaN`,
whose recent points include the NaN sentinel: no row is emitted. -/
theorem nan_sentinel_excluded_witness :
    (vwap_history_get_recent (([demoHistNaN] : List (Ring vwap_point)).getD 0
        (vwap_history_init 0)) MOVING_AVG_POINTS = some demoNaNPoints
      ∧ none ∈ demoNaNPoints.map fun pt => pt.vwap)
    ∧ correlationRow [demoHistNaN] 0 = none :=
  ⟨⟨by decide, by decide⟩,
    (nan_sentinel_excluded [demoHistNaN] 0 demoNaNPoints (by decide)
      (by decide)).2.2.2.2.2⟩

/-! ### The raw trade queue, from `src/data/queue.c`

The C struct has no `size` field: occupancy is implicit in `head_idx` and
`tail_idx` (`size = (tail_idx + capacity - head_idx) % capacity`), so one
slot always stays unused and a queue of `capacity` slots holds at most
`capacity - 1` messages.  The C push's drop-oldest `while` loop advances the
head until the full test fails; for `capacity ≥ 2` (the program uses 1024)
one advance already falsifies the test, so the fuel `capacity` given to
`queueDrop` covers every terminating run of the loop.  `raw_queue_pop`'s
blocking wait is modelled as the `none` result on an empty queue (the
shutdown path); the element type is a parameter, the C element being the
plain struct `raw_trade_message`. -/

structure raw_trade_queue (α : Type) where
  buffer : List α
  capacity : ℕ
  head_idx : ℕ
  tail_idx : ℕ
  deriving DecidableEq

/-- `raw_queue_init(q, capacity)`: calloc'd buffer, zero indices. -/
def raw_queue_init (α : Type) [Inhabited α] (capacity : ℕ) : raw_trade_queue α :=
  ⟨List.replicate capacity default, capacity, 0, 0⟩

/-- The push's drop-oldest loop:
`while ((tail_idx + 1) % capacity == head_idx) head_idx = (head_idx + 1) % capacity`. -/
def queueDrop {α : Type} : ℕ → raw_trade_queue α → raw_trade_queue α
  | 0, q => q
  | fuel + 1, q =>
    if (q.tail_idx + 1) % q.capacity = q.head_idx then
      queueDrop fuel { q with head_idx := (q.head_idx + 1) % q.capacity }
    else q

/-- `raw_queue_push(q, msg)`: drop the oldest message while full, then store
at the tail and advance it. -/
def raw_queue_push {α : Type} (q : raw_trade_queue α) (msg : α) : raw_trade_queue α :=
  let q1 := queueDrop q.capacity q
  { q1 with buffer := q1.buffer.set q1.tail_idx msg,
            tail_idx := (q1.tail_idx + 1) % q1.capacity }

/-- `raw_queue_pop(q, &msg)`: `none` when empty (the C call then blocks, or
returns 0 on shutdown); otherwise the head message and the advanced queue. -/
def raw_queue_pop {α : Type} [Inhabited α] (q : raw_trade_queue α) :
    Option (α × raw_trade_queue α) :=
  if q.head_idx = q.tail_idx then none
  else some (q.buffer.getD q.head_idx default,
    { q with head_idx := (q.head_idx + 1) % q.capacity })

/-- The implicit occupancy of the index pair. -/
def qSize {α : Type} (q : raw_trade_queue α) : ℕ :=
  (q.tail_idx + q.capacity - q.head_idx) % q.capacity

/-- The queue's ring fields as a `Ring`, with the implicit size made
explicit. -/
def qRing {α : Type} (q : raw_trade_queue α) : Ring α :=
  ⟨q.buffer, q.capacity, q.head_idx, q.tail_idx, qSize q⟩

/-- The live messages, oldest first. -/
def qContents {α : Type} (q : raw_trade_queue α) : List α := (qRing q).contents

/-- Queue well-formedness: allocated buffer, in-range indices, and at least
two slots (so the drop-oldest loop terminates; the program allocates 1024). -/
def qWF {α : Type} (q : raw_trade_queue α) : Prop :=
  q.buffer.length = q.capacity ∧ 2 ≤ q.capacity ∧ q.head_idx < q.capacity ∧
    q.tail_idx < q.capacity

instance {α : Type} (q : raw_trade_queue α) : Decidable (qWF q) := by
  unfold qWF
  infer_instance

theorem qsize_mod (h t c : ℕ) (hh : h < c) (ht : t < c) :
    (h + (t + c - h) % c) % c = t := by
  by_cases htlt : t < h
  · rw [Nat.mod_eq_of_lt (show t + c - h < c by omega),
      show h + (t + c - h) = t + c from by omega,
      Nat.mod_eq_sub_mod (by omega), show t + c - c = t from by omega,
      Nat.mod_eq_of_lt ht]
  · rw [show t + c - h = (t - h) + c from by omega, Nat.add_mod_right,
      show (t - h) % c = t - h from Nat.mod_eq_of_lt (by omega),
      show h + (t - h) = t from by omega,
      Nat.mod_eq_of_lt ht]

theorem qsize_full_iff (h t c : ℕ) (hh : h < c) (ht : t < c) (hc : 2 ≤ c) :
    (t + 1) % c = h ↔ (t + c - h) % c = c - 1 := by
  constructor
  · intro hf
    by_cases ht1 : t + 1 = c
    · have h0 : h = 0 := by rw [← hf, ht1, Nat.mod_self]
      subst h0
      rw [show t + c - 0 = (c - 1) + c from by omega, Nat.add_mod_right,
        Nat.mod_eq_of_lt (by omega)]
    · have hht : h = t + 1 := by rw [← hf, Nat.mod_eq_of_lt (by omega)]
      subst hht
      rw [show t + c - (t + 1) = c - 1 from by omega, Nat.mod_eq_of_lt (by omega)]
  · intro hs
    by_cases hth : t < h
    · rw [Nat.mod_eq_of_lt (show t + c - h < c by omega)] at hs
      rw [Nat.mod_eq_of_lt (show t + 1 < c by omega)]
      omega
    · rw [show t + c - h = (t - h) + c from by omega, Nat.add_mod_right,
        Nat.mod_eq_of_lt (by omega)] at hs
      have h0 : h = 0 := by omega
      rw [show t + 1 = c from by omega, Nat.mod_self, h0]

theorem qsize_push (h t c : ℕ) (hh : h < c) (ht : t < c) (hc : 0 < c)
    (hf : (t + 1) % c ≠ h) :
    ((t + 1) % c + c - h) % c = (t + c - h) % c + 1 := by
  by_cases ht1 : t + 1 = c
  · have hz : (t + 1) % c = 0 := by rw [ht1, Nat.mod_self]
    rw [hz] at hf ⊢
    rw [show 0 + c - h = c - h from by omega, Nat.mod_eq_of_lt (by omega),
      show t + c - h = (c - 1 - h) + c from by omega, Nat.add_mod_right,
      Nat.mod_eq_of_lt (by omega)]
    omega
  · have h1 : (t + 1) % c = t + 1 := Nat.mod_eq_of_lt (by omega)
    rw [h1] at hf ⊢
    by_cases hth : t < h
    · rw [Nat.mod_eq_of_lt (show t + 1 + c - h < c by omega),
        Nat.mod_eq_of_lt (show t + c - h < c by omega)]
      omega
    · rw [show t + 1 + c - h = (t + 1 - h) + c from by omega, Nat.add_mod_right,
        Nat.mod_eq_of_lt (by omega),
        show t + c - h = (t - h) + c from by omega, Nat.add_mod_right,
        Nat.mod_eq_of_lt (by omega)]
      omega

theorem qsize_full_push (h c : ℕ) (hh : h < c) (hc : 2 ≤ c) :
    (h + c - (h + 1) % c) % c = c - 1 := by
  by_cases hh1 : h + 1 = c
  · rw [show (h + 1) % c = 0 from by rw [hh1, Nat.mod_self],
      show h + c - 0 = (c - 1) + c from by omega, Nat.add_mod_right,
      Nat.mod_eq_of_lt (by omega)]
  · rw [Nat.mod_eq_of_lt (show h + 1 < c by omega),
      show h + c - (h + 1) = c - 1 from by omega, Nat.mod_eq_of_lt (by omega)]


theorem qWF_ring {α : Type} (q : raw_trade_queue α) (hwf : qWF q) : (qRing q).WF := by
  obtain ⟨hlen, hc, hh, ht⟩ := hwf
  refine ⟨hlen, show 0 < q.capacity by omega, hh, ht, ?_, ?_⟩
  · show (q.tail_idx + q.capacity - q.head_idx) % q.capacity ≤ q.capacity
    exact le_of_lt (Nat.mod_lt _ (by omega))
  show q.tail_idx
    = (q.head_idx + (q.tail_idx + q.capacity - q.head_idx) % q.capacity) % q.capacity
  exact (qsize_mod q.head_idx q.tail_idx q.capacity hh ht).symm

theorem queueDrop_not_full {α : Type} (fuel : ℕ) (q : raw_trade_queue α)
    (h : (q.tail_idx + 1) % q.capacity ≠ q.head_idx) : queueDrop fuel q = q := by
  cases fuel with
  | zero => rfl
  | succ f =>
    unfold queueDrop
    rw [if_neg h]

theorem queueDrop_full {α : Type} (fuel : ℕ) (q : raw_trade_queue α) (hfuel : 0 < fuel)
    (hc : 2 ≤ q.capacity) (hh : q.head_idx < q.capacity)
    (hf : (q.tail_idx + 1) % q.capacity = q.head_idx) :
    queueDrop fuel q = { q with head_idx := (q.head_idx + 1) % q.capacity } := by
  cases fuel with
  | zero => omega
  | succ f =>
    unfold queueDrop
    rw [if_pos hf]
    apply queueDrop_not_full
    show (q.tail_idx + 1) % q.capacity ≠ (q.head_idx + 1) % q.capacity
    rw [hf]
    by_cases hh1 : q.head_idx + 1 = q.capacity
    · rw [hh1, Nat.mod_self]
      omega
    · rw [Nat.mod_eq_of_lt (show q.head_idx + 1 < q.capacity by omega)]
      omega

theorem qContents_push {α : Type} (q : raw_trade_queue α) (m : α) (hwf : qWF q) :
    qContents (raw_queue_push q m)
      = (if qSize q = q.capacity - 1 then (qContents q).drop 1 else qContents q) ++ [m] := by
  obtain ⟨hlen, hc, hh, ht⟩ := hwf
  have hrwf : (qRing q).WF := qWF_ring q ⟨hlen, hc, hh, ht⟩
  by_cases hfull : (q.tail_idx + 1) % q.capacity = q.head_idx
  · have hsz : qSize q = q.capacity - 1 :=
      (qsize_full_iff q.head_idx q.tail_idx q.capacity hh ht hc).1 hfull
    rw [if_pos hsz]
    have hpos : 0 < (qRing q).size := by
      show 0 < qSize q
      omega
    have hpwf : ((qRing q).popFront).WF := Ring.WF_popFront _ hrwf hpos
    have hplt : ((qRing q).popFront).size < ((qRing q).popFront).capacity := by
      show qSize q - 1 < q.capacity
      omega
    have hqr : qRing (raw_queue_push q m)
        = Ring.pushBack (Ring.popFront (qRing q)) m := by
      unfold raw_queue_push
      dsimp only
      rw [queueDrop_full q.capacity q (by omega) hc hh hfull]
      show Ring.mk (q.buffer.set q.tail_idx m) q.capacity ((q.head_idx + 1) % q.capacity)
          ((q.tail_idx + 1) % q.capacity)
          (((q.tail_idx + 1) % q.capacity + q.capacity - (q.head_idx + 1) % q.capacity)
            % q.capacity)
        = Ring.mk (q.buffer.set q.tail_idx m) q.capacity ((q.head_idx + 1) % q.capacity)
          ((q.tail_idx + 1) % q.capacity) (qSize q - 1 + 1)
      rw [hfull]
      have h1 : (q.head_idx + q.capacity - (q.head_idx + 1) % q.capacity) % q.capacity
          = q.capacity - 1 := qsize_full_push q.head_idx q.capacity hh hc
      rw [h1]
      rw [show q.capacity - 1 = qSize q - 1 + 1 from by omega]
    unfold qContents
    rw [hqr, Ring.contents_pushBack _ hpwf hplt m, Ring.contents_popFront _ hrwf hpos]
  · have hsz : qSize q ≠ q.capacity - 1 := fun hcon =>
      hfull ((qsize_full_iff q.head_idx q.tail_idx q.capacity hh ht hc).2 hcon)
    rw [if_neg hsz]
    have hlt : (qRing q).size < (qRing q).capacity := by
      show qSize q < q.capacity
      exact Nat.mod_lt _ (by omega)
    have hqr : qRing (raw_queue_push q m) = Ring.pushBack (qRing q) m := by
      unfold raw_queue_push
      dsimp only
      rw [queueDrop_not_full q.capacity q hfull]
      show Ring.mk (q.buffer.set q.tail_idx m) q.capacity q.head_idx
          ((q.tail_idx + 1) % q.capacity)
          (((q.tail_idx + 1) % q.capacity + q.capacity - q.head_idx) % q.capacity)
        = Ring.mk (q.buffer.set q.tail_idx m) q.capacity q.head_idx
          ((q.tail_idx + 1) % q.capacity) (qSize q + 1)
      rw [show ((q.tail_idx + 1) % q.capacity + q.capacity - q.head_idx) % q.capacity
          = qSize q + 1 from qsize_push q.head_idx q.tail_idx q.capacity hh ht
            (by omega) hfull]
    unfold qContents
    rw [hqr, Ring.contents_pushBack _ hrwf hlt m]

/-- Folding a list of messages through `raw_queue_push`. -/
def applyPushes {α : Type} (q : raw_trade_queue α) (msgs : List α) : raw_trade_queue α :=
  msgs.foldl raw_queue_push q

/-- Up to `n` successive pops, in order, stopping at the first empty result. -/
def qPopList {α : Type} [Inhabited α] : ℕ → raw_trade_queue α → List α
  | 0, _ => []
  | n + 1, q =>
    match raw_queue_pop q with
    | none => []
    | some (a, q2) => a :: qPopList n q2

/-- **C3**: `raw_queue_push` never fails: on a well-formed queue the pushed
message always lands after the live contents — when the ring is full
(`capacity - 1` live messages) the oldest message is dropped first, otherwise
the contents are preserved.  Concretely (scenario S3), pushing messages 1..5
into a ring of `Q = 4` slots (effective capacity 3) with the consumer stalled
leaves exactly `[3, 4, 5]`, and the consumer then pops 3, 4, 5 in that order
before finding the queue empty. -/
theorem raw_queue_push_drop_oldest {α : Type} [Inhabited α] (q : raw_trade_queue α)
    (m : α) (hwf : qWF q) :
    (qContents (raw_queue_push q m)
      = (if qSize q = q.capacity - 1 then (qContents q).drop 1 else qContents q) ++ [m])
    ∧ qContents (applyPushes (raw_queue_init ℕ 4) [1, 2, 3, 4, 5]) = [3, 4, 5]
    ∧ qPopList 10 (applyPushes (raw_queue_init ℕ 4) [1, 2, 3, 4, 5]) = [3, 4, 5] :=
  ⟨qContents_push q m hwf, by decide, by decide⟩

/-- A full 4-slot queue holding the messages 1, 2, 3. -/
def demoQueue : raw_trade_queue ℕ := applyPushes (raw_queue_init ℕ 4) [1, 2, 3]

/-- **C3** witness: the theorem applied to the full queue `demoQueue` and the
message 9: the oldest message 1 is dropped. -/
theorem raw_queue_push_drop_oldest_witness :
    qWF demoQueue
    ∧ ((qContents (raw_queue_push demoQueue 9)
        = (if qSize demoQueue = demoQueue.capacity - 1 then (qContents demoQueue).drop 1
          else qContents demoQueue) ++ [9])
      ∧ qContents (applyPushes (raw_queue_init ℕ 4) [1, 2, 3, 4, 5]) = [3, 4, 5]
      ∧ qPopList 10 (applyPushes (raw_queue_init ℕ 4) [1, 2, 3, 4, 5]) = [3, 4, 5]) :=
  ⟨by decide, raw_queue_push_drop_oldest demoQueue 9 (by decide)⟩

/-! ### Scheduler start alignment, from `src/scheduler/scheduler.c`

`scheduled_time_ns = ((now_ns / PERIOD_NS) + 1) * PERIOD_NS` with C `int64_t`
division, which truncates toward zero — `Int.tdiv` in Lean (monotonic clocks
are non-negative, where truncating and flooring agree). -/

/-- `PERIOD_NS = 60000LL * NS_PER_MS`. -/
def PERIOD_NS : ℤ := 60000 * NS_PER_MS

/-- The initial alignment computed at scheduler start from
`now_monotonic_ns()`. -/
def scheduler_initial_scheduled_ns (now_ns : ℤ) : ℤ :=
  (Int.tdiv now_ns PERIOD_NS + 1) * PERIOD_NS

/-- **C4** (amended): at scheduler start the initial `scheduled_ns` is the
smallest multiple of `PERIOD_NS` strictly greater than `now_monotonic_ns()`.
When the current time lies exactly on a minute multiple the code schedules
the following minute, not the current instant, so "greater than or equal"
holds only in this strict form. -/
theorem scheduler_initial_aligned_strict (now_ns : ℤ) (hnow : 0 ≤ now_ns) :
    PERIOD_NS ∣ scheduler_initial_scheduled_ns now_ns
    ∧ now_ns < scheduler_initial_scheduled_ns now_ns
    ∧ ∀ m : ℤ, PERIOD_NS ∣ m → now_ns < m → scheduler_initial_scheduled_ns now_ns ≤ m := by
  have hP : PERIOD_NS = 60000000000 := by norm_num [PERIOD_NS, NS_PER_MS]
  unfold scheduler_initial_scheduled_ns
  rw [Int.tdiv_eq_ediv hnow (by rw [hP]; omega), hP]
  refine ⟨⟨now_ns / 60000000000 + 1, by ring⟩, by omega, ?_⟩
  intro m hdvd hlt
  omega

/-- **C4** counterexample to the claimed "greater than or equal, including
the exact-boundary case": at `now_ns = 0` (a minute multiple) the smallest
multiple of `PERIOD_NS` at least `now_ns` is 0, but the code schedules
`PERIOD_NS`, so the claimed least-multiple-`≥` property fails. -/
theorem scheduler_align_ge_cx :
    ¬(PERIOD_NS ∣ scheduler_initial_scheduled_ns 0
      ∧ (0 : ℤ) ≤ scheduler_initial_scheduled_ns 0
      ∧ ∀ m : ℤ, PERIOD_NS ∣ m → (0 : ℤ) ≤ m → scheduler_initial_scheduled_ns 0 ≤ m) := by
  intro h
  have hmin := h.2.2 0 ⟨0, by ring⟩ le_rfl
  have hval : scheduler_initial_scheduled_ns 0 = 60000000000 := by decide
  omega

/-- **C4** witness: the amended theorem applied at `now_ns = 123`. -/
theorem scheduler_initial_aligned_witness :
    (0 : ℤ) ≤ 123
    ∧ (PERIOD_NS ∣ scheduler_initial_scheduled_ns 123
      ∧ (123 : ℤ) < scheduler_initial_scheduled_ns 123
      ∧ ∀ m : ℤ, PERIOD_NS ∣ m → (123 : ℤ) < m →
          scheduler_initial_scheduled_ns 123 ≤ m) :=
  ⟨by decide, scheduler_initial_aligned_strict 123 (by decide)⟩

/-! ### The OKX JSON parser, from `src/network/okx_parser.c`

C strings become `List Char` (the terminating NUL is the empty list); a
returned `char *` becomes the `Option` of the suffix it points into.
`strtod` and `strtoll` are modelled on their decimal forms with exact
rational (resp. integer) values — the `errno`/`ERANGE` overflow paths are
not modelled, and the double rounding of `strtod` is abstracted to the exact
decimal value, as everywhere in this development. -/

def beginsWith : List Char → List Char → Bool
  | [], _ => true
  | _ :: _, [] => false
  | a :: as, b :: bs => a = b && beginsWith as bs

/-- C `strstr`: the suffix at the first occurrence of `needle`. -/
def strstr : List Char → List Char → Option (List Char)
  | [], needle => if beginsWith needle [] then some [] else none
  | c :: rest, needle =>
    if beginsWith needle (c :: rest) then some (c :: rest)
    else strstr rest needle

/-- C `strchr`: the suffix at the first occurrence of `ch` (NUL not found). -/
def strchr : List Char → Char → Option (List Char)
  | [], _ => none
  | c :: rest, ch => if c = ch then some (c :: rest) else strchr rest ch

/-- The parser's whitespace skip: `while (*p==' '||*p=='\\t'||*p=='\\n'||*p=='\\r') p++`. -/
def skipWS : List Char → List Char
  | [] => []
  | c :: rest =>
    if c = ' ' ∨ c = '\t' ∨ c = '\n' ∨ c = '\r' then skipWS rest else c :: rest

/-- Split at the first occurrence of `ch`: the part before it and the suffix
after it (`strchr` + pointer arithmetic in the C). -/
def splitAtChar (ch : Char) : List Char → Option (List Char × List Char)
  | [] => none
  | c :: rest =>
    if c = ch then some ([], rest)
    else
      match splitAtChar ch rest with
      | none => none
      | some (pre, post) => some (c :: pre, post)

/-- `json_extract_string(json, key, out, outsz)`: the extracted value
(truncated to `outsz - 1` characters) and the position after the closing
quote. -/
def json_extract_string (json key : List Char) (outsz : ℕ) :
    Option (List Char × List Char) :=
  match strstr json key with
  | none => none
  | some p0 =>
    match strchr p0 ':' with
    | none => none
    | some p1 =>
      match skipWS p1.tail with
      | [] => none
      | c :: rest =>
        if c = '"' then
          match splitAtChar '"' rest with
          | none => none
          | some (v, after) => some (v.take (outsz - 1), after)
        else none

/-- Read a run of decimal digits: accumulated value, digit count, rest. -/
def readDigits : List Char → ℕ → ℕ × ℕ × List Char
  | [], acc => (acc, 0, [])
  | c :: rest, acc =>
    if c.isDigit then
      let r := readDigits rest (acc * 10 + (c.toNat - 48))
      (r.1, r.2.1 + 1, r.2.2)
    else (acc, 0, c :: rest)

/-- `strtod` on its decimal forms, with the exact rational value: optional
whitespace and sign, digits with optional fraction and exponent.  When no
digits are converted the result is 0 with `endp` the original string. -/
def strtodQ (s : List Char) : ℚ × List Char :=
  let s1 := skipWS s
  let sgned : ℤ × List Char :=
    match s1 with
    | '-' :: r => (-1, r)
    | '+' :: r => (1, r)
    | _ => (1, s1)
  let ipart := readDigits sgned.2 0
  let fpart : ℕ × ℕ × List Char :=
    match ipart.2.2 with
    | '.' :: r => readDigits r 0
    | _ => (0, 0, ipart.2.2)
  if ipart.2.1 + fpart.2.1 = 0 then (0, s)
  else
    let expart : ℤ × List Char :=
      match fpart.2.2 with
      | 'e' :: '-' :: r =>
        let ev := readDigits r 0
        if ev.2.1 = 0 then (0, fpart.2.2) else (-(ev.1 : ℤ), ev.2.2)
      | 'e' :: '+' :: r =>
        let ev := readDigits r 0
        if ev.2.1 = 0 then (0, fpart.2.2) else ((ev.1 : ℤ), ev.2.2)
      | 'e' :: r =>
        let ev := readDigits r 0
        if ev.2.1 = 0 then (0, fpart.2.2) else ((ev.1 : ℤ), ev.2.2)
      | 'E' :: '-' :: r =>
        let ev := readDigits r 0
        if ev.2.1 = 0 then (0, fpart.2.2) else (-(ev.1 : ℤ), ev.2.2)
      | 'E' :: '+' :: r =>
        let ev := readDigits r 0
        if ev.2.1 = 0 then (0, fpart.2.2) else ((ev.1 : ℤ), ev.2.2)
      | 'E' :: r =>
        let ev := readDigits r 0
        if ev.2.1 = 0 then (0, fpart.2.2) else ((ev.1 : ℤ), ev.2.2)
      | _ => (0, fpart.2.2)
    let num : ℤ := sgned.1 * ((ipart.1 : ℤ) * 10 ^ fpart.2.1 + (fpart.1 : ℤ))
    let value : ℚ :=
      if 0 ≤ expart.1 then mkRat (num * 10 ^ expart.1.toNat) (10 ^ fpart.2.1)
      else mkRat num (10 ^ fpart.2.1 * 10 ^ (-expart.1).toNat)
    (value, expart.2)

/-- `strtoll(s, &endp, 10)`: optional whitespace and sign, then digits; when
no digits are converted the result is 0 with `endp` the original string. -/
def strtollQ (s : List Char) : ℤ × List Char :=
  let s1 := skipWS s
  let sgned : ℤ × List Char :=
    match s1 with
    | '-' :: r => (-1, r)
    | '+' :: r => (1, r)
    | _ => (1, s1)
  let d := readDigits sgned.2 0
  if d.2.1 = 0 then (0, s)
  else (sgned.1 * (d.1 : ℤ), d.2.2)

/-- The `SYMBOLS` table from `src/config.h`. -/
def SYMBOLS : List (List Char) :=
  ["BTC-USDT".toList, "ADA-USDT".toList, "ETH-USDT".toList, "DOGE-USDT".toList,
    "XRP-USDT".toList, "SOL-USDT".toList, "LTC-USDT".toList, "BNB-USDT".toList]

/-- The populated fields of the C `raw_trade_message`. -/
structure raw_trade_message where
  symbol_index : ℕ
  exchange_ts_ms : ℤ
  price : ℚ
  size : ℚ
  deriving DecidableEq

def dataKey : List Char := "\"data\"".toList
def instIdKey : List Char := "\"instId\"".toList
def pxKey : List Char := "\"px\"".toList
def szKey : List Char := "\"sz\"".toList
def tsKey : List Char := "\"ts\"".toList

/-- `parse_okx_trade(json, &msg)`: `none` is the C `return 0`.  The `now_ms`
argument stands for the wall clock read by the `now_ms()` fallback. -/
def parse_okx_trade (json : List Char) (now_ms : ℤ) : Option raw_trade_message :=
  match strstr json dataKey with
  | none => none
  | some d0 =>
    match strchr d0 '[' with
    | none => none
    | some d1 =>
      match strchr d1.tail '\x7b' with
      | none => none
      | some obj =>
        match json_extract_string obj instIdKey 32 with
        | none => none
        | some (inst_id, cur1) =>
          match SYMBOLS.findIdx? (fun s => s == inst_id) with
          | none => none
          | some symbol_idx =>
            match json_extract_string cur1 pxKey 32 with
            | none => none
            | some (price_str, cur2) =>
              match strtodQ price_str with
              | (price, endp) =>
                if endp ≠ [] ∨ price ≤ 0 then none
                else
                  match json_extract_string cur2 szKey 32 with
                  | none => none
                  | some (size_str, cur3) =>
                    match strtodQ size_str with
                    | (size, endp2) =>
                      if endp2 ≠ [] ∨ size ≤ 0 then none
                      else
                        let ts_ms : ℤ :=
                          match json_extract_string cur3 tsKey 32 with
                          | none => now_ms
                          | some (ts_str, _) =>
                            match strtollQ ts_str with
                            | (tv, endp3) =>
                              if endp3 ≠ [] ∨ tv ≤ 0 then now_ms else tv
                        some ⟨symbol_idx, ts_ms, price, size⟩

/-- **C9**: a missing or invalid `"ts"` field does not reject the message —
whenever the `"data"`/object scan and the `instId`/`px`/`sz` extractions
succeed, the symbol is known and price and size parse positive with nothing
trailing, then even when the `"ts"` extraction fails, or its `strtoll` parse
leaves trailing characters or yields a non-positive value, parsing succeeds
and `exchange_ts_ms` is the current wall-clock time `now`. -/
theorem parse_okx_ts_fallback (json : List Char) (now : ℤ)
    (d0 d1 obj inst_id cur1 : List Char) (symbol_idx : ℕ)
    (price_str cur2 size_str cur3 : List Char) (price size : ℚ)
    (hdata : strstr json dataKey = some d0)
    (hbr : strchr d0 '[' = some d1)
    (hobj : strchr d1.tail '\x7b' = some obj)
    (hinst : json_extract_string obj instIdKey 32 = some (inst_id, cur1))
    (hsym : SYMBOLS.findIdx? (fun s => s == inst_id) = some symbol_idx)
    (hpx : json_extract_string cur1 pxKey 32 = some (price_str, cur2))
    (hpxv : strtodQ price_str = (price, []))
    (hpos : 0 < price)
    (hsz : json_extract_string cur2 szKey 32 = some (size_str, cur3))
    (hszv : strtodQ size_str = (size, []))
    (hspos : 0 < size)
    (hts : json_extract_string cur3 tsKey 32 = none
      ∨ ∃ ts_str rest, json_extract_string cur3 tsKey 32 = some (ts_str, rest)
          ∧ ((strtollQ ts_str).2 ≠ [] ∨ (strtollQ ts_str).1 ≤ 0)) :
    parse_okx_trade json now = some ⟨symbol_idx, now, price, size⟩ := by
  unfold parse_okx_trade
  rw [hdata]
  dsimp only
  rw [hbr]
  dsimp only
  rw [hobj]
  dsimp only
  rw [hinst]
  dsimp only
  rw [hsym]
  dsimp only
  rw [hpx]
  dsimp only
  rw [hpxv]
  dsimp only
  rw [if_neg (not_or.2 ⟨fun hc => hc rfl, not_le.2 hpos⟩)]
  rw [hsz]
  dsimp only
  rw [hszv]
  dsimp only
  rw [if_neg (not_or.2 ⟨fun hc => hc rfl, not_le.2 hspos⟩)]
  rcases hts with hts | ⟨ts_str, rest, hsome, hbad⟩
  · rw [hts]
  · rw [hsome]
    dsimp only
    rcases hq : strtollQ ts_str with ⟨tv, ep⟩
    rw [hq] at hbad
    dsimp only at hbad
    rw [if_pos hbad]

/-- A trade message with valid `instId`, `px` and `sz` but no `"ts"` field. -/
def jsonW : List Char :=
  "\x7b\"data\":[\x7b\"instId\":\"BTC-USDT\",\"px\":\"2\",\"sz\":\"3\"\x7d]\x7d".toList

/-- The parser's position after the `sz` extraction on `jsonW`. -/
def cur3W : List Char := "\x7d]\x7d".toList

/-- **C9** witness: the theorem applied to the `ts`-less message `jsonW` at
wall clock 777: the parse succeeds with `exchange_ts_ms = 777`. -/
theorem parse_okx_ts_fallback_witness :
    json_extract_string cur3W tsKey 32 = none
    ∧ parse_okx_trade jsonW 777 = some ⟨0, 777, 2, 3⟩ :=
  ⟨by decide,
    parse_okx_ts_fallback jsonW 777
      "\"data\":[\x7b\"instId\":\"BTC-USDT\",\"px\":\"2\",\"sz\":\"3\"\x7d]\x7d".toList
      "[\x7b\"instId\":\"BTC-USDT\",\"px\":\"2\",\"sz\":\"3\"\x7d]\x7d".toList
      "\x7b\"instId\":\"BTC-USDT\",\"px\":\"2\",\"sz\":\"3\"\x7d]\x7d".toList
      "BTC-USDT".toList
      ",\"px\":\"2\",\"sz\":\"3\"\x7d]\x7d".toList
      0
      "2".toList
      ",\"sz\":\"3\"\x7d]\x7d".toList
      "3".toList
      cur3W
      2 3
      (by decide) (by decide) (by decide) (by decide) (by decide) (by decide)
      (by decide) (by decide) (by decide) (by decide) (by decide)
      (Or.inl (by decide))⟩

end CryptoProc
